import Mathlib

/-!
Shallow embedding of the ritual-file-renamer pairing engine
(src/pairing.py, src/matching.py, src/metadata.py, src/video_split.py).

Modelling conventions:
* `datetime` values are modelled as `Int` (seconds); `timedelta(seconds=n)`
  comparisons become integer comparisons.
* Filesystem paths are modelled as `String` holding the file name (the
  scanner works on one flat directory, so `path.name` is the path itself).
* Similarity scores (Python floats in `[0,1]`) are modelled as `Rat`.
* External tools (exifread, ffprobe, OpenCV, `stat`) are modelled as oracle
  parameters gathered in context structures; the Python code wraps every
  tool call in `try/except` and converts failures to `None`, which the
  oracles return as `Option`/`Bool` results.
* Python `dict`s (insertion ordered) are modelled as association lists with
  `dictFind`/`dictInsert` mirroring `d[k]` / `d[k] = v`.
* Python's stable `list.sort(key=...)` is modelled by `List.insertionSort`
  with the corresponding total `≤` relation (both are stable sorts, hence
  produce the same list).
* `print` calls that report problems ("警告: ..." lines) are modelled as a
  returned list of `Warning` values; a Python `raise` is modelled with
  `Except.error`.
-/

namespace RitualRenamer

/-- `MediaFile` dataclass from src/pairing.py. -/
structure MediaFile where
  path : String
  is_video : Bool
  created_time : Int
  time_source : String
deriving DecidableEq, Repr

/-- `FilePair` dataclass from src/pairing.py. -/
structure FilePair where
  photo : MediaFile
  video : MediaFile
  sequence : Nat
  sub_sequence : String
deriving DecidableEq, Repr

/-- The warning `print` calls of src/pairing.py, as data. -/
inductive Warning where
  | countMismatch (numPhotos numVideos : Nat)
  | unmatchedPhoto (path : String)
  | unmatchedVideo (path : String)
deriving DecidableEq, Repr

/-! ### Association-list model of Python dicts -/

/-- `d.get(k)` / `k in d` on a Python dict, as an association list lookup. -/
def dictFind {α : Type} (d : List (String × α)) (k : String) : Option α :=
  match d with
  | [] => none
  | e :: rest => if e.1 = k then some e.2 else dictFind rest k

/-- `d[k] = v` on a Python dict: update in place if the key exists
(keeping its position), otherwise append at the end. -/
def dictInsert {α : Type} (d : List (String × α)) (k : String) (v : α) :
    List (String × α) :=
  match d with
  | [] => [(k, v)]
  | e :: rest => if e.1 = k then (k, v) :: rest else e :: dictInsert rest k v

/-! ### metadata.py -/

/-- Oracles for the metadata extraction helpers of src/metadata.py:
`exif` is `get_exif_datetime` (None on any parse/tool failure),
`videoMeta` is `get_video_creation_time` (None on any failure), and
`fsTime` is `get_filesystem_time` (total: filesystem time always exists
for an existing file). -/
structure MetaCtx where
  exif : String → Option Int
  videoMeta : String → Option Int
  fsTime : String → Int

/-- `get_media_datetime` from src/metadata.py. -/
def get_media_datetime (mc : MetaCtx) (file_path : String) (is_video : Bool) :
    Int × String :=
  if is_video then
    match mc.videoMeta file_path with
    | some t => (t, "video_meta")
    | none => (mc.fsTime file_path, "filesystem")
  else
    match mc.exif file_path with
    | some t => (t, "exif")
    | none => (mc.fsTime file_path, "filesystem")

/-! ### Scanning (src/pairing.py, `scan_media_files`) -/

def IMAGE_EXTENSIONS : List String := [".jpg", ".jpeg", ".png", ".heic", ".heif"]

def VIDEO_EXTENSIONS : List String := [".mp4", ".mov", ".m4v", ".avi"]

/-- Index of the last `'.'` in a character list (`str.rfind('.')`). -/
def lastDotIdx : List Char → Option Nat
  | [] => none
  | c :: rest =>
    match lastDotIdx rest with
    | some i => some (i + 1)
    | none => if c = '.' then some 0 else none

/-- `pathlib.Path.suffix`: the final dot-suffix of the name, or `""` when the
dot is absent, leading, or trailing (CPython: `0 < i < len(name) - 1`). -/
def pathSuffix (name : String) : String :=
  let cs := name.toList
  match lastDotIdx cs with
  | none => ""
  | some i => if 0 < i ∧ i < cs.length - 1 then String.mk (cs.drop i) else ""

/-- Python's `str.lower()` on the suffix: character-wise lowercasing
(ASCII-relevant here, as the extension sets are ASCII). -/
def strLower (s : String) : String := String.mk (s.toList.map Char.toLower)

/-- One directory entry kept by `scan_media_files`: extension classification
and timestamp resolution via `get_media_datetime`. -/
def scanEntry (mc : MetaCtx) (isFile : String → Bool) (p : String) :
    Option MediaFile :=
  if !(isFile p) then none
  else
    let ext := strLower (pathSuffix p)
    if ext ∈ IMAGE_EXTENSIONS then
      let ts := get_media_datetime mc p false
      some ⟨p, false, ts.1, ts.2⟩
    else if ext ∈ VIDEO_EXTENSIONS then
      let ts := get_media_datetime mc p true
      some ⟨p, true, ts.1, ts.2⟩
    else none

/-- `scan_media_files` from src/pairing.py. `entries` is the directory
iteration order of `input_path.iterdir()`, `isFile` the `is_file()` test,
`dirExists` the `input_path.exists()` test (False raises
`FileNotFoundError`). The final `.sort(key=created_time)` is stable. -/
def scan_media_files (mc : MetaCtx) (dirExists : Bool) (isFile : String → Bool)
    (entries : List String) : Except String (List MediaFile) :=
  if !dirExists then Except.error "input directory does not exist"
  else
    Except.ok
      (List.insertionSort (fun a b : MediaFile => a.created_time ≤ b.created_time)
        (entries.filterMap (scanEntry mc isFile)))

/-! ### matching.py -/

/-- Oracles for the OpenCV helpers of src/matching.py: `frameOk v` says
`extract_video_frame(v)` returned a frame (not None), `loadOk p` says
`load_image(p)` succeeded, and `sim p v` is `compute_similarity` between
photo `p`'s image and video `v`'s cached frame (0.0 on internal failure,
as the Python function never raises). -/
structure MatchCtx where
  frameOk : String → Bool
  loadOk : String → Bool
  sim : String → String → Rat

/-- The keys (in insertion order) of the `video_frames` dict: every video
path whose frame extraction succeeded, first occurrence kept. -/
def videoFramesKeys (ctx : MatchCtx) (video_paths : List String) : List String :=
  (video_paths.foldl
    (fun d v => if ctx.frameOk v then dictInsert d v Unit.unit else d)
    ([] : List (String × Unit))).map Prod.fst

/-- Per-photo candidate list: every frame-bearing video whose similarity is
at or above the threshold, sorted by score descending (stable). -/
def photoScores (ctx : MatchCtx) (vf : List String) (threshold : Rat)
    (p : String) : List (String × Rat) :=
  List.insertionSort (fun a b : String × Rat => b.2 ≤ a.2)
    (vf.filterMap (fun v =>
      if threshold ≤ ctx.sim p v then some (v, ctx.sim p v) else none))

/-- The `photo_video_scores` dict of `match_photos_to_videos`: photos whose
image failed to load are skipped. -/
def photoVideoScores (ctx : MatchCtx) (vf : List String) (threshold : Rat)
    (photo_paths : List String) : List (String × List (String × Rat)) :=
  photo_paths.foldl
    (fun d p =>
      if ctx.loadOk p then dictInsert d p (photoScores ctx vf threshold p) else d)
    []

/-- One update of the `video_to_photo` dict: first photo claims the video,
a later photo only steals it with a strictly greater score. -/
def v2pStep (p : String) (d : List (String × (String × Rat)))
    (vs : String × Rat) : List (String × (String × Rat)) :=
  match dictFind d vs.1 with
  | none => dictInsert d vs.1 (p, vs.2)
  | some pr => if pr.2 < vs.2 then dictInsert d vs.1 (p, vs.2) else d

/-- The `video_to_photo` dict: winner-take-all per video. -/
def videoToPhoto (pvs : List (String × List (String × Rat))) :
    List (String × (String × Rat)) :=
  pvs.foldl (fun d e => e.2.foldl (v2pStep e.1) d) []

/-- One update of the `photo_to_videos` dict: append the video to its
winning photo's group. -/
def p2vStep (d : List (String × List (String × Rat)))
    (e : String × (String × Rat)) : List (String × List (String × Rat)) :=
  match dictFind d e.2.1 with
  | none => dictInsert d e.2.1 [(e.1, e.2.2)]
  | some vs => dictInsert d e.2.1 (vs ++ [(e.1, e.2.2)])

/-- The `photo_to_videos` dict: groups the winner-take-all assignment by
photo. -/
def photoToVideos (v2p : List (String × (String × Rat))) :
    List (String × List (String × Rat)) :=
  v2p.foldl p2vStep []

/-- `match_photos_to_videos` from src/matching.py. -/
def match_photos_to_videos (ctx : MatchCtx) (photo_paths video_paths : List String)
    (threshold : Rat) (multi_video : Bool) :
    List (String × List (String × Rat)) :=
  let vf := videoFramesKeys ctx video_paths
  let pvs := photoVideoScores ctx vf threshold photo_paths
  if multi_video then
    let p2v := photoToVideos (videoToPhoto pvs)
    photo_paths.filterMap (fun p =>
      match dictFind p2v p with
      | none => none
      | some vs =>
        some (p, List.insertionSort (fun a b : String × Rat => a.1 ≤ b.1) vs))
  else
    (photo_paths.foldl
      (fun acc p =>
        match dictFind pvs p with
        | none => acc
        | some scores =>
          match scores.find? (fun vs => !(acc.2.contains vs.1)) with
          | none => acc
          | some vs => (acc.1 ++ [(p, [vs])], acc.2 ++ [vs.1]))
      (([], []) : List (String × List (String × Rat)) × List String)).1

/-! ### pairing.py -/

/-- `sub_labels = 'abcdefghijklmnopqrstuvwxyz'`. -/
def sub_labels : List Char := "abcdefghijklmnopqrstuvwxyz".toList

/-- `sub_labels[idx] if idx < len(sub_labels) else str(idx + 1)`. -/
def subLabelOf (idx : Nat) : String :=
  match sub_labels.get? idx with
  | some c => String.singleton c
  | none => toString (idx + 1)

/-- The warning printed when photo and video counts differ. -/
def countWarn (photos videos : List MediaFile) : List Warning :=
  if photos.length ≠ videos.length then
    [Warning.countMismatch photos.length videos.length]
  else []

/-- The 1:1 / 1:N emission shared by the time-tolerance and image pairing
loops: a single match keeps the empty sub-sequence, several matches are
lettered `a, b, c, …` (numerals past `z`). -/
def emitGroup (photo : MediaFile) (seq : Nat) : List MediaFile → List FilePair
  | [v] => [⟨photo, v, seq, ""⟩]
  | vs => vs.enum.map (fun iv => ⟨photo, iv.2, seq, subLabelOf iv.1⟩)

/-- The inner collection loop of `pair_files_by_time`: scan all videos in
list order, skip the ones already claimed (`used_videos`), collect every
video whose time difference to the photo lies in `[0, tol]` and claim it
immediately. Returns the matches (in scan order) and the grown claim set. -/
def collectMatches (photo : MediaFile) (tol : Int) :
    List MediaFile → List String → List MediaFile × List String
  | [], used => ([], used)
  | v :: vs, used =>
    if used.contains v.path then collectMatches photo tol vs used
    else if 0 ≤ v.created_time - photo.created_time ∧
            v.created_time - photo.created_time ≤ tol then
      let r := collectMatches photo tol vs (used ++ [v.path])
      (v :: r.1, r.2)
    else collectMatches photo tol vs used

/-- The per-photo loop of `pair_files_by_time`: unmatched photos warn and
do not consume a sequence number; matched groups are sorted by video time
(stable) and emitted under the next sequence number. -/
def byTimeLoop (tol : Int) (videos : List MediaFile) :
    List MediaFile → List String → Nat →
      List FilePair × List String × List Warning
  | [], used, _ => ([], used, [])
  | p :: ps, used, seq =>
    let c := collectMatches p tol videos used
    if c.1 = [] then
      let r := byTimeLoop tol videos ps c.2 seq
      (r.1, r.2.1, Warning.unmatchedPhoto p.path :: r.2.2)
    else
      let sorted :=
        List.insertionSort
          (fun a b : MediaFile => a.created_time ≤ b.created_time) c.1
      let r := byTimeLoop tol videos ps c.2 (seq + 1)
      (emitGroup p seq sorted ++ r.1, r.2.1, r.2.2)

/-- `pair_files_by_time` from src/pairing.py (tolerance default 60 s). -/
def pair_files_by_time (media_files : List MediaFile) (tol : Int) :
    List FilePair × List Warning :=
  let photos := media_files.filter (fun f => !f.is_video)
  let videos := media_files.filter (fun f => f.is_video)
  let r := byTimeLoop tol videos photos [] 1
  let trailing :=
    (videos.filter (fun v => !(r.2.1.contains v.path))).map
      (fun v => Warning.unmatchedVideo v.path)
  (r.1, countWarn photos videos ++ r.2.2 ++ trailing)

/-- `photo_map[p]` / `video_map[v]`: the dicts are built from files keyed by
their own path, so a hit always returns a file whose `path` is the key; the
default (for the out-of-domain case Python would `KeyError` on) also carries
the key as its path. -/
def lookupMedia (d : List (String × MediaFile)) (k : String) : MediaFile :=
  (dictFind d k).getD ⟨k, false, 0, "filesystem"⟩

/-- `{f.path: f for f in files}`. -/
def mediaDict (files : List MediaFile) : List (String × MediaFile) :=
  files.foldl (fun d f => dictInsert d f.path f) []

/-- The emission step of image mode in `pair_files`: one plain pair for a
single match, lettered pairs for several. -/
def imageEmit (pm vm : List (String × MediaFile)) (seq : Nat)
    (m : String × List (String × Rat)) : List FilePair :=
  match m.2 with
  | [vs] => [⟨lookupMedia pm m.1, lookupMedia vm vs.1, seq, ""⟩]
  | vlist =>
    vlist.enum.map
      (fun ivs => ⟨lookupMedia pm m.1, lookupMedia vm ivs.2.1, seq, subLabelOf ivs.1⟩)

/-- The sequence loop of image mode: one sequence number per match group. -/
def imageLoop (pm vm : List (String × MediaFile)) :
    List (String × List (String × Rat)) → Nat → List FilePair
  | [], _ => []
  | m :: rest, seq => imageEmit pm vm seq m ++ imageLoop pm vm rest (seq + 1)

/-- The `while` loop of time mode in `pair_files`: a photo at or before the
current video forms a pair, a video earlier than the current photo is
skipped with a warning; leftovers on either side warn. -/
def pairTimeLoop : List MediaFile → List MediaFile → Nat →
    List FilePair × List Warning
  | [], vs, _ => ([], vs.map (fun v => Warning.unmatchedVideo v.path))
  | p :: ps, [], _ => ([], (p :: ps).map (fun f => Warning.unmatchedPhoto f.path))
  | p :: ps, v :: vs, seq =>
    if p.created_time ≤ v.created_time then
      let r := pairTimeLoop ps vs (seq + 1)
      (⟨p, v, seq, ""⟩ :: r.1, r.2)
    else
      let r := pairTimeLoop (p :: ps) vs seq
      (r.1, Warning.unmatchedVideo v.path :: r.2)
termination_by ps vs _ => (ps.length, vs.length)

/-- `pair_files` from src/pairing.py. `birth` is `path.stat().st_birthtime`
(filesystem creation / download time) used by order mode. Mode is the
Python string: `"image"`, `"order"`, anything else is time mode. -/
def pair_files (ctx : MatchCtx) (birth : String → Int)
    (media_files : List MediaFile) (mode : String) :
    List FilePair × List Warning :=
  let photos := media_files.filter (fun f => !f.is_video)
  let videos := media_files.filter (fun f => f.is_video)
  let w0 := countWarn photos videos
  if mode = "image" then
    let mres :=
      match_photos_to_videos ctx (photos.map (fun f => f.path))
        (videos.map (fun f => f.path)) (1 / 10) true
    (imageLoop (mediaDict photos) (mediaDict videos) mres 1, w0)
  else if mode = "order" then
    let ps := List.insertionSort (fun a b : MediaFile => a.path ≤ b.path) photos
    let vs :=
      List.insertionSort (fun a b : MediaFile => birth a.path ≤ birth b.path) videos
    let prs := (ps.zip vs).enum.map (fun ipv => ⟨ipv.2.1, ipv.2.2, ipv.1 + 1, ""⟩)
    let surplus :=
      if videos.length < photos.length then
        (ps.drop videos.length).map (fun f => Warning.unmatchedPhoto f.path)
      else if photos.length < videos.length then
        (vs.drop photos.length).map (fun f => Warning.unmatchedVideo f.path)
      else []
    (prs, w0 ++ surplus)
  else
    let r := pairTimeLoop photos videos 1
    (r.1, w0 ++ r.2)

/-! ### video_split.py -/

/-- Outcome of one `ffmpeg` segment invocation in `split_video`:
success (return code 0 and the output exists), failure (nonzero return,
missing output, timeout or other exception — the loop continues), or
`ffmpeg` not installed (`FileNotFoundError` — the loop breaks). -/
inductive SegResult where
  | ok
  | fail
  | toolMissing
deriving DecidableEq, Repr

/-- Oracles for src/video_split.py: `duration` is `get_video_duration`
(None when ffprobe fails, times out or prints garbage), `seg` the outcome
of the ffmpeg run producing a given output path. -/
structure SplitCtx where
  duration : String → Option Rat
  seg : String → SegResult

/-- `sub_labels = 'abcdefghij'` of `split_video`. -/
def splitSubLabels : List Char := "abcdefghij".toList

/-- Output path of segment `i`: `output_dir / f"{base_name}{sub_label}{ext}"`. -/
def segmentName (output_dir base_name ext : String) (i : Nat) : String :=
  output_dir ++ "/" ++ base_name ++
    (match splitSubLabels.get? i with
     | some c => String.singleton c
     | none => "") ++ ext

/-- The per-segment ffmpeg loop: collect successful outputs, skip failures,
break when the tool is missing. -/
def splitLoop (sc : SplitCtx) : List String → List String
  | [] => []
  | p :: rest =>
    match sc.seg p with
    | SegResult.ok => p :: splitLoop sc rest
    | SegResult.fail => splitLoop sc rest
    | SegResult.toolMissing => []

/-- `split_video` from src/video_split.py: raises `ValueError` (modelled as
`Except.error`) for a segment count outside `[2,10]`, returns `[]` when the
duration cannot be determined, and otherwise returns the successfully
produced segment paths. -/
def split_video (sc : SplitCtx) (input_path output_dir : String)
    (num_segments : Nat) (base_name : String) (ext : String) :
    Except String (List String) :=
  if num_segments < 2 ∨ 10 < num_segments then
    Except.error "segment count must be between 2 and 10"
  else
    match sc.duration input_path with
    | none => Except.ok []
    | some _ =>
      Except.ok
        (splitLoop sc
          ((List.range num_segments).map (segmentName output_dir base_name ext)))

end RitualRenamer

namespace RitualRenamer

/-! ### Claim-level predicates -/

/-- The pairs decompose into consecutive nonempty blocks whose sequence
numbers are `s, s+1, s+2, …` in output order: the dense-range invariant,
generalised over the starting number. -/
def SeqGroupedFrom (s : Nat) (pairs : List FilePair) : Prop :=
  ∃ blocks : List (List FilePair), pairs = blocks.flatten ∧
    ∀ i (h : i < blocks.length),
      blocks.get ⟨i, h⟩ ≠ [] ∧ ∀ pr ∈ blocks.get ⟨i, h⟩, pr.sequence = s + i

/-- Sequence values of a result set, in output order, are exactly the dense
range `1..k`, with pairs of one group adjacent. -/
def SeqGrouped (pairs : List FilePair) : Prop := SeqGroupedFrom 1 pairs

/-- Pairs sharing a photo (by path) share one sequence value. -/
def PhotoSeqConsistent (pairs : List FilePair) : Prop :=
  ∀ pr ∈ pairs, ∀ qr ∈ pairs, pr.photo.path = qr.photo.path →
    pr.sequence = qr.sequence

/-- No video path appears in more than one FilePair of the result set. -/
def VideoNodup (pairs : List FilePair) : Prop :=
  (pairs.map (fun pr => pr.video.path)).Nodup

/-! ### Sorting relations used by the Python `list.sort` calls -/

instance : IsTotal MediaFile (fun a b : MediaFile => a.created_time ≤ b.created_time) :=
  ⟨fun a b => Int.le_total a.created_time b.created_time⟩

instance : IsTrans MediaFile (fun a b : MediaFile => a.created_time ≤ b.created_time) :=
  ⟨fun _ _ _ h h' => le_trans h h'⟩

instance : IsTotal (String × Rat) (fun a b : String × Rat => a.1 ≤ b.1) :=
  ⟨fun a b => le_total a.1 b.1⟩

instance : IsTrans (String × Rat) (fun a b : String × Rat => a.1 ≤ b.1) :=
  ⟨fun _ _ _ h h' => le_trans h h'⟩

/-! ### Generic helpers -/

theorem seqGroupedFrom_nil (s : Nat) : SeqGroupedFrom s [] :=
  ⟨[], rfl, fun i h => absurd h (by simp)⟩

theorem seqGroupedFrom_cons {s : Nat} {b rest : List FilePair} (hb : b ≠ [])
    (hseq : ∀ pr ∈ b, pr.sequence = s) (hrest : SeqGroupedFrom (s + 1) rest) :
    SeqGroupedFrom s (b ++ rest) := by
  obtain ⟨blocks, hj, hprop⟩ := hrest
  refine ⟨b :: blocks, by simp [hj], ?_⟩
  intro i h
  cases i with
  | zero => exact ⟨hb, fun pr hpr => by simpa using hseq pr hpr⟩
  | succ n =>
    have hn : n < blocks.length := by simpa using h
    refine ⟨(hprop n hn).1, fun pr hpr => ?_⟩
    have := (hprop n hn).2 pr (by simpa using hpr)
    omega

theorem seqGroupedFrom_of_map_range' {s : Nat} {pairs : List FilePair}
    (h : pairs.map (fun pr => pr.sequence) = List.range' s pairs.length) :
    SeqGroupedFrom s pairs := by
  induction pairs generalizing s with
  | nil => exact seqGroupedFrom_nil s
  | cons pr rest ih =>
    rw [List.length_cons, List.range'_succ, List.map_cons] at h
    have h1 : pr.sequence = s := (List.cons.injEq _ _ _ _ ▸ h).1
    have h2 : rest.map (fun pr => pr.sequence) = List.range' (s + 1) rest.length :=
      (List.cons.injEq _ _ _ _ ▸ h).2
    have hrest : SeqGroupedFrom (s + 1) rest := ih h2
    have hcons := @seqGroupedFrom_cons s [pr] rest (by simp)
      (by simpa using h1) hrest
    simpa using hcons

/-! ### enumFrom helpers -/

theorem map_enumFrom_build {α β : Type} (f : Nat → α → β) (g : β → α)
    (h : ∀ i a, g (f i a) = a) :
    ∀ (n : Nat) (l : List α),
      ((List.enumFrom n l).map (fun ia => f ia.1 ia.2)).map g = l := by
  intro n l
  induction l generalizing n with
  | nil => rfl
  | cons a t ih => simp [List.enumFrom, h, ih]

theorem map_enumFrom_build_idx {α β : Type} (f : Nat → α → β) (g : β → Nat)
    (c : Nat) (h : ∀ i a, g (f i a) = i + c) :
    ∀ (n : Nat) (l : List α),
      ((List.enumFrom n l).map (fun ia => f ia.1 ia.2)).map g =
        List.range' (n + c) l.length := by
  intro n l
  induction l generalizing n with
  | nil => rfl
  | cons a t ih =>
    rw [List.length_cons, List.range'_succ]
    simp only [List.enumFrom, List.map_cons, h]
    rw [ih (n + 1), Nat.add_right_comm]

theorem map_enumFrom_build_lbl {α β : Type} (f : Nat → α → β) (g : β → String)
    (h : ∀ i a, g (f i a) = subLabelOf i) :
    ∀ (n : Nat) (l : List α),
      ((List.enumFrom n l).map (fun ia => f ia.1 ia.2)).map g =
        (List.range' n l.length).map subLabelOf := by
  intro n l
  induction l generalizing n with
  | nil => rfl
  | cons a t ih =>
    rw [List.length_cons, List.range'_succ]
    simp only [List.enumFrom, List.map_cons, h]
    rw [ih (n + 1)]

/-! ### emitGroup facts -/

theorem emitGroup_two (p : MediaFile) (s : Nat) (v₁ v₂ : MediaFile)
    (t : List MediaFile) :
    emitGroup p s (v₁ :: v₂ :: t) =
      ((v₁ :: v₂ :: t).enum.map
        (fun iv => (⟨p, iv.2, s, subLabelOf iv.1⟩ : FilePair))) := rfl

theorem emitGroup_map_video (p : MediaFile) (s : Nat) (l : List MediaFile) :
    (emitGroup p s l).map (fun pr => pr.video) = l := by
  match l with
  | [] => rfl
  | [v] => rfl
  | v₁ :: v₂ :: t =>
    rw [emitGroup_two]
    exact map_enumFrom_build
      (fun i v => (⟨p, v, s, subLabelOf i⟩ : FilePair))
      (fun pr => pr.video) (fun _ _ => rfl) 0 _

theorem emitGroup_length (p : MediaFile) (s : Nat) (l : List MediaFile) :
    (emitGroup p s l).length = l.length := by
  have := congrArg List.length (emitGroup_map_video p s l)
  simpa using this

theorem mem_emitGroup {p : MediaFile} {s : Nat} {l : List MediaFile}
    {pr : FilePair} (hpr : pr ∈ emitGroup p s l) :
    pr.photo = p ∧ pr.sequence = s ∧ pr.video ∈ l := by
  match l with
  | [] => simp [emitGroup] at hpr
  | [v] =>
    simp only [emitGroup, List.mem_singleton] at hpr
    subst hpr; exact ⟨rfl, rfl, by simp⟩
  | v₁ :: v₂ :: t =>
    rw [emitGroup_two, List.mem_map] at hpr
    obtain ⟨iv, hiv, heq⟩ := hpr
    subst heq
    refine ⟨rfl, rfl, ?_⟩
    have hmem := List.mem_enum hiv
    exact hmem.2 ▸ List.getElem_mem _

/-! ### collectMatches facts -/

/-- The time window test of `pair_files_by_time`, line 260 of src/pairing.py. -/
def inWindow (photo v : MediaFile) (tol : Int) : Prop :=
  0 ≤ v.created_time - photo.created_time ∧
    v.created_time - photo.created_time ≤ tol

instance (photo v : MediaFile) (tol : Int) : Decidable (inWindow photo v tol) := by
  unfold inWindow; infer_instance

theorem collectMatches_spec (photo : MediaFile) (tol : Int) :
    ∀ (vs : List MediaFile) (used : List String),
      (collectMatches photo tol vs used).2 =
        used ++ ((collectMatches photo tol vs used).1.map (fun v => v.path)) ∧
      ((collectMatches photo tol vs used).1.map (fun v => v.path)).Nodup ∧
      (∀ v ∈ (collectMatches photo tol vs used).1,
        v.path ∉ used ∧ v ∈ vs ∧ inWindow photo v tol) := by
  intro vs
  induction vs with
  | nil => intro used; simp [collectMatches]
  | cons w vs ih =>
    intro used
    by_cases hw : used.contains w.path
    · rw [collectMatches, if_pos hw]
      obtain ⟨h1, h2, h3⟩ := ih used
      exact ⟨h1, h2, fun v hv => ⟨(h3 v hv).1, List.mem_cons_of_mem _ (h3 v hv).2.1,
        (h3 v hv).2.2⟩⟩
    · by_cases hwin : 0 ≤ w.created_time - photo.created_time ∧
          w.created_time - photo.created_time ≤ tol
      · rw [collectMatches, if_neg hw, if_pos hwin]
        obtain ⟨h1, h2, h3⟩ := ih (used ++ [w.path])
        have hwused : w.path ∉ used := by simpa using hw
        refine ⟨?_, ?_, ?_⟩
        · simpa [List.append_assoc] using h1
        · refine List.nodup_cons.2 ⟨?_, h2⟩
          intro hin
          rw [List.mem_map] at hin
          obtain ⟨v, hv, hvp⟩ := hin
          have hne := (h3 v hv).1
          simp only [List.mem_append, List.mem_singleton] at hne
          push_neg at hne
          exact hne.2 hvp
        · intro v hv
          rcases List.mem_cons.1 hv with rfl | hv'
          · exact ⟨hwused, List.mem_cons_self _ _, hwin⟩
          · obtain ⟨hu, hm, hwv⟩ := h3 v hv'
            exact ⟨fun hvu => hu (by simp [hvu]), List.mem_cons_of_mem _ hm, hwv⟩
      · rw [collectMatches, if_neg hw, if_neg hwin]
        obtain ⟨h1, h2, h3⟩ := ih used
        exact ⟨h1, h2, fun v hv => ⟨(h3 v hv).1, List.mem_cons_of_mem _ (h3 v hv).2.1,
          (h3 v hv).2.2⟩⟩

theorem collectMatches_mem_iff (photo : MediaFile) (tol : Int) :
    ∀ (vs : List MediaFile) (used : List String) (v : MediaFile),
      (vs.map (fun x => x.path)).Nodup → v ∈ vs → v.path ∉ used →
      (v ∈ (collectMatches photo tol vs used).1 ↔ inWindow photo v tol) := by
  intro vs
  induction vs with
  | nil => intro used v _ hv; exact absurd hv (by simp)
  | cons w vs ih =>
    intro used v hnd hv hu
    have hndtail : (vs.map (fun x => x.path)).Nodup := (List.nodup_cons.1 hnd).2
    have hwnot : w.path ∉ vs.map (fun x => x.path) := (List.nodup_cons.1 hnd).1
    rcases List.mem_cons.1 hv with rfl | hvtail
    · -- v is the head
      have hwc : ¬ used.contains v.path := by simpa using hu
      by_cases hwin : 0 ≤ v.created_time - photo.created_time ∧
          v.created_time - photo.created_time ≤ tol
      · rw [collectMatches, if_neg hwc, if_pos hwin]
        exact ⟨fun _ => hwin, fun _ => List.mem_cons_self _ _⟩
      · rw [collectMatches, if_neg hwc, if_neg hwin]
        constructor
        · intro hmem
          have := ((collectMatches_spec photo tol vs used).2.2 v hmem).2.1
          exact absurd (List.mem_map_of_mem (fun x => x.path) this) hwnot
        · intro hwin'; exact absurd hwin' hwin
    · -- v is in the tail
      have hvpw : v.path ≠ w.path := by
        intro hEq
        exact hwnot (hEq ▸ List.mem_map_of_mem (fun x => x.path) hvtail)
      by_cases hw : used.contains w.path
      · rw [collectMatches, if_pos hw]
        exact ih used v hndtail hvtail hu
      · by_cases hwin : 0 ≤ w.created_time - photo.created_time ∧
            w.created_time - photo.created_time ≤ tol
        · rw [collectMatches, if_neg hw, if_pos hwin]
          have hunew : v.path ∉ used ++ [w.path] := by
            simp only [List.mem_append, List.mem_singleton]
            rintro (h | h)
            · exact hu h
            · exact hvpw h
          have hiff := ih (used ++ [w.path]) v hndtail hvtail hunew
          constructor
          · intro hmem
            rcases List.mem_cons.1 hmem with rfl | hmem'
            · exact absurd rfl hvpw
            · exact hiff.1 hmem'
          · intro hwv
            exact List.mem_cons_of_mem _ (hiff.2 hwv)
        · rw [collectMatches, if_neg hw, if_neg hwin]
          exact ih used v hndtail hvtail hu

/-! ### byTimeLoop facts -/

theorem byTimeLoop_cons (tol : Int) (videos : List MediaFile) (p : MediaFile)
    (ps : List MediaFile) (used : List String) (seq : Nat) :
    byTimeLoop tol videos (p :: ps) used seq =
      if (collectMatches p tol videos used).1 = [] then
        ((byTimeLoop tol videos ps (collectMatches p tol videos used).2 seq).1,
         (byTimeLoop tol videos ps (collectMatches p tol videos used).2 seq).2.1,
         Warning.unmatchedPhoto p.path ::
           (byTimeLoop tol videos ps (collectMatches p tol videos used).2 seq).2.2)
      else
        (emitGroup p seq
            (List.insertionSort
              (fun a b : MediaFile => a.created_time ≤ b.created_time)
              (collectMatches p tol videos used).1) ++
          (byTimeLoop tol videos ps (collectMatches p tol videos used).2 (seq + 1)).1,
         (byTimeLoop tol videos ps (collectMatches p tol videos used).2 (seq + 1)).2.1,
         (byTimeLoop tol videos ps (collectMatches p tol videos used).2 (seq + 1)).2.2) :=
  rfl

theorem emitGroup_map_videopath (p : MediaFile) (s : Nat) (l : List MediaFile) :
    (emitGroup p s l).map (fun pr => pr.video.path) = l.map (fun v => v.path) := by
  have h := congrArg (List.map (fun f : MediaFile => f.path)) (emitGroup_map_video p s l)
  simpa [List.map_map, Function.comp] using h

theorem insertionSort_time_perm (l : List MediaFile) :
    (List.insertionSort
      (fun a b : MediaFile => a.created_time ≤ b.created_time) l).Perm l :=
  List.perm_insertionSort _ l

theorem byTimeLoop_seqGrouped (tol : Int) (videos : List MediaFile) :
    ∀ (ps : List MediaFile) (used : List String) (seq : Nat),
      SeqGroupedFrom seq (byTimeLoop tol videos ps used seq).1 := by
  intro ps
  induction ps with
  | nil => intro used seq; exact seqGroupedFrom_nil seq
  | cons p ps ih =>
    intro used seq
    rw [byTimeLoop_cons]
    by_cases hc : (collectMatches p tol videos used).1 = []
    · rw [if_pos hc]; exact ih _ seq
    · rw [if_neg hc]
      refine seqGroupedFrom_cons ?_ ?_ (ih _ (seq + 1))
      · intro hnil
        have hlen := congrArg List.length hnil
        rw [emitGroup_length] at hlen
        have := (insertionSort_time_perm (collectMatches p tol videos used).1).length_eq
        simp only [List.length_nil] at hlen
        rw [hlen] at this
        exact hc (List.eq_nil_of_length_eq_zero this.symm)
      · intro pr hpr
        exact (mem_emitGroup hpr).2.1

theorem byTimeLoop_photo_of_mem (tol : Int) (videos : List MediaFile) :
    ∀ (ps : List MediaFile) (used : List String) (seq : Nat) (pr : FilePair),
      pr ∈ (byTimeLoop tol videos ps used seq).1 → ∃ x ∈ ps, pr.photo = x := by
  intro ps
  induction ps with
  | nil => intro used seq pr hpr; simp [byTimeLoop] at hpr
  | cons p ps ih =>
    intro used seq pr hpr
    rw [byTimeLoop_cons] at hpr
    by_cases hc : (collectMatches p tol videos used).1 = []
    · rw [if_pos hc] at hpr
      obtain ⟨x, hx, hpx⟩ := ih _ seq pr hpr
      exact ⟨x, List.mem_cons_of_mem _ hx, hpx⟩
    · rw [if_neg hc] at hpr
      rcases List.mem_append.1 hpr with hm | hm
      · exact ⟨p, List.mem_cons_self _ _, (mem_emitGroup hm).1⟩
      · obtain ⟨x, hx, hpx⟩ := ih _ (seq + 1) pr hm
        exact ⟨x, List.mem_cons_of_mem _ hx, hpx⟩

theorem byTimeLoop_seq_lb (tol : Int) (videos : List MediaFile) :
    ∀ (ps : List MediaFile) (used : List String) (seq : Nat) (pr : FilePair),
      pr ∈ (byTimeLoop tol videos ps used seq).1 → seq ≤ pr.sequence := by
  intro ps
  induction ps with
  | nil => intro used seq pr hpr; simp [byTimeLoop] at hpr
  | cons p ps ih =>
    intro used seq pr hpr
    rw [byTimeLoop_cons] at hpr
    by_cases hc : (collectMatches p tol videos used).1 = []
    · rw [if_pos hc] at hpr
      exact ih _ seq pr hpr
    · rw [if_neg hc] at hpr
      rcases List.mem_append.1 hpr with hm | hm
      · exact le_of_eq (mem_emitGroup hm).2.1.symm
      · exact le_trans (Nat.le_succ seq) (ih _ (seq + 1) pr hm)

theorem byTimeLoop_photoConsistent (tol : Int) (videos : List MediaFile) :
    ∀ (ps : List MediaFile) (used : List String) (seq : Nat),
      (ps.map (fun f => f.path)).Nodup →
      PhotoSeqConsistent (byTimeLoop tol videos ps used seq).1 := by
  intro ps
  induction ps with
  | nil => intro used seq _ pr hpr; simp [byTimeLoop] at hpr
  | cons p ps ih =>
    intro used seq hnd pr hpr qr hqr hpath
    have hndtail : (ps.map (fun f => f.path)).Nodup := (List.nodup_cons.1 hnd).2
    have hpnot : p.path ∉ ps.map (fun f => f.path) := (List.nodup_cons.1 hnd).1
    rw [byTimeLoop_cons] at hpr hqr
    by_cases hc : (collectMatches p tol videos used).1 = []
    · rw [if_pos hc] at hpr hqr
      exact ih _ seq hndtail pr hpr qr hqr hpath
    · rw [if_neg hc] at hpr hqr
      have hsep : ∀ x : FilePair,
          x ∈ (byTimeLoop tol videos ps (collectMatches p tol videos used).2
            (seq + 1)).1 → x.photo.path ≠ p.path := by
        intro x hx hEq
        obtain ⟨y, hy, hxy⟩ := byTimeLoop_photo_of_mem tol videos ps _ _ x hx
        exact hpnot (hEq ▸ hxy ▸ List.mem_map_of_mem (fun f => f.path) hy)
      rcases List.mem_append.1 hpr with hm | hm <;>
        rcases List.mem_append.1 hqr with hm' | hm'
      · rw [(mem_emitGroup hm).2.1, (mem_emitGroup hm').2.1]
      · exact absurd ((mem_emitGroup hm).1 ▸ hpath).symm (hsep qr hm')
      · exact absurd ((mem_emitGroup hm').1 ▸ hpath) (hsep pr hm)
      · exact ih _ (seq + 1) hndtail pr hm qr hm' hpath

theorem byTimeLoop_video_paths (tol : Int) (videos : List MediaFile) :
    ∀ (ps : List MediaFile) (used : List String) (seq : Nat),
      (∀ q ∈ (byTimeLoop tol videos ps used seq).1.map (fun pr => pr.video.path),
        q ∈ (byTimeLoop tol videos ps used seq).2.1 ∧ q ∉ used) ∧
      ((byTimeLoop tol videos ps used seq).1.map (fun pr => pr.video.path)).Nodup ∧
      (∀ q ∈ used, q ∈ (byTimeLoop tol videos ps used seq).2.1) := by
  intro ps
  induction ps with
  | nil =>
    intro used seq
    refine ⟨fun q hq => ?_, by simp [byTimeLoop], fun q hq => by simpa [byTimeLoop] using hq⟩
    simp [byTimeLoop] at hq
  | cons p ps ih =>
    intro used seq
    obtain ⟨hcol1, hcol2, hcol3⟩ := collectMatches_spec p tol videos used
    rw [byTimeLoop_cons]
    by_cases hc : (collectMatches p tol videos used).1 = []
    · rw [if_pos hc]
      obtain ⟨ih1, ih2, ih3⟩ := ih (collectMatches p tol videos used).2 seq
      refine ⟨fun q hq => ⟨(ih1 q hq).1, fun hu => (ih1 q hq).2 ?_⟩, ih2, fun q hq => ?_⟩
      · rw [hcol1]; exact List.mem_append_left _ hu
      · exact ih3 q (by rw [hcol1]; exact List.mem_append_left _ hq)
    · rw [if_neg hc]
      obtain ⟨ih1, ih2, ih3⟩ := ih (collectMatches p tol videos used).2 (seq + 1)
      have hperm : (List.insertionSort
          (fun a b : MediaFile => a.created_time ≤ b.created_time)
          (collectMatches p tol videos used).1).Perm
          (collectMatches p tol videos used).1 := insertionSort_time_perm _
      have hhead : (emitGroup p seq
          (List.insertionSort (fun a b : MediaFile => a.created_time ≤ b.created_time)
            (collectMatches p tol videos used).1)).map (fun pr => pr.video.path) =
          (List.insertionSort (fun a b : MediaFile => a.created_time ≤ b.created_time)
            (collectMatches p tol videos used).1).map (fun v => v.path) :=
        emitGroup_map_videopath _ _ _
      have hheadperm : ((emitGroup p seq
          (List.insertionSort (fun a b : MediaFile => a.created_time ≤ b.created_time)
            (collectMatches p tol videos used).1)).map (fun pr => pr.video.path)).Perm
          ((collectMatches p tol videos used).1.map (fun v => v.path)) := by
        rw [hhead]; exact hperm.map _
      have hheadsub : ∀ q,
          q ∈ (emitGroup p seq
            (List.insertionSort (fun a b : MediaFile => a.created_time ≤ b.created_time)
              (collectMatches p tol videos used).1)).map (fun pr => pr.video.path) →
          q ∈ (collectMatches p tol videos used).1.map (fun v => v.path) :=
        fun q hq => hheadperm.mem_iff.1 hq
      have hmatchused : ∀ q, q ∈ (collectMatches p tol videos used).1.map (fun v => v.path) →
          q ∈ (collectMatches p tol videos used).2 := by
        intro q hq; rw [hcol1]; exact List.mem_append_right _ hq
      have hmatchnotused : ∀ q, q ∈ (collectMatches p tol videos used).1.map (fun v => v.path) →
          q ∉ used := by
        intro q hq hqu
        rw [List.mem_map] at hq
        obtain ⟨v, hv, hvq⟩ := hq
        exact (hcol3 v hv).1 (hvq ▸ hqu)
      rw [List.map_append]
      refine ⟨?_, ?_, ?_⟩
      · intro q hq
        rcases List.mem_append.1 hq with hm | hm
        · exact ⟨ih3 q (hmatchused q (hheadsub q hm)), hmatchnotused q (hheadsub q hm)⟩
        · refine ⟨(ih1 q hm).1, fun hu => (ih1 q hm).2 ?_⟩
          rw [hcol1]; exact List.mem_append_left _ hu
      · rw [List.nodup_append]
        refine ⟨hheadperm.nodup_iff.2 hcol2, ih2, ?_⟩
        intro q hq hq'
        exact (ih1 q hq').2 (hmatchused q (hheadsub q hq))
      · intro q hq
        exact ih3 q (by rw [hcol1]; exact List.mem_append_left _ hq)

theorem byTimeLoop_window (tol : Int) (videos : List MediaFile) :
    ∀ (ps : List MediaFile) (used : List String) (seq : Nat) (pr : FilePair),
      pr ∈ (byTimeLoop tol videos ps used seq).1 →
      inWindow pr.photo pr.video tol := by
  intro ps
  induction ps with
  | nil => intro used seq pr hpr; simp [byTimeLoop] at hpr
  | cons p ps ih =>
    intro used seq pr hpr
    rw [byTimeLoop_cons] at hpr
    by_cases hc : (collectMatches p tol videos used).1 = []
    · rw [if_pos hc] at hpr
      exact ih _ seq pr hpr
    · rw [if_neg hc] at hpr
      rcases List.mem_append.1 hpr with hm | hm
      · obtain ⟨hphoto, _, hvid⟩ := mem_emitGroup hm
        have hvid' : pr.video ∈ (collectMatches p tol videos used).1 :=
          (insertionSort_time_perm _).mem_iff.1 hvid
        have := ((collectMatches_spec p tol videos used).2.2 pr.video hvid').2.2
        rw [hphoto]
        exact this
      · exact ih _ (seq + 1) pr hm

/-! ### pairTimeLoop facts -/

theorem pairTimeLoop_nil_l (vs : List MediaFile) (s : Nat) :
    pairTimeLoop [] vs s =
      ([], vs.map (fun v => Warning.unmatchedVideo v.path)) := by
  simp [pairTimeLoop]

theorem pairTimeLoop_nil_r (p : MediaFile) (ps : List MediaFile) (s : Nat) :
    pairTimeLoop (p :: ps) [] s =
      ([], (p :: ps).map (fun f => Warning.unmatchedPhoto f.path)) := by
  simp [pairTimeLoop]

theorem pairTimeLoop_cons (p : MediaFile) (ps : List MediaFile) (v : MediaFile)
    (vs : List MediaFile) (s : Nat) :
    pairTimeLoop (p :: ps) (v :: vs) s =
      if p.created_time ≤ v.created_time then
        (⟨p, v, s, ""⟩ :: (pairTimeLoop ps vs (s + 1)).1,
          (pairTimeLoop ps vs (s + 1)).2)
      else
        ((pairTimeLoop (p :: ps) vs s).1,
          Warning.unmatchedVideo v.path :: (pairTimeLoop (p :: ps) vs s).2) := by
  rw [pairTimeLoop]

theorem pairTimeLoop_seq :
    ∀ (ps vs : List MediaFile) (s : Nat),
      (pairTimeLoop ps vs s).1.map (fun pr => pr.sequence) =
        List.range' s (pairTimeLoop ps vs s).1.length := by
  intro ps
  induction ps with
  | nil => intro vs s; simp [pairTimeLoop_nil_l]
  | cons p ps ihp =>
    intro vs
    induction vs with
    | nil => intro s; simp [pairTimeLoop_nil_r]
    | cons v vs ihv =>
      intro s
      rw [pairTimeLoop_cons]
      by_cases h : p.created_time ≤ v.created_time
      · rw [if_pos h]
        simp only [List.map_cons, List.length_cons, List.range'_succ]
        rw [ihp vs (s + 1)]
      · rw [if_neg h]
        exact ihv s

theorem pairTimeLoop_photos_sublist :
    ∀ (ps vs : List MediaFile) (s : Nat),
      ((pairTimeLoop ps vs s).1.map (fun pr => pr.photo)).Sublist ps := by
  intro ps
  induction ps with
  | nil => intro vs s; simp [pairTimeLoop_nil_l]
  | cons p ps ihp =>
    intro vs
    induction vs with
    | nil => intro s; simp [pairTimeLoop_nil_r]
    | cons v vs ihv =>
      intro s
      rw [pairTimeLoop_cons]
      by_cases h : p.created_time ≤ v.created_time
      · rw [if_pos h]
        exact List.Sublist.cons₂ p (ihp vs (s + 1))
      · rw [if_neg h]
        exact ihv s

theorem pairTimeLoop_videos_sublist :
    ∀ (ps vs : List MediaFile) (s : Nat),
      ((pairTimeLoop ps vs s).1.map (fun pr => pr.video)).Sublist vs := by
  intro ps
  induction ps with
  | nil => intro vs s; simp [pairTimeLoop_nil_l]
  | cons p ps ihp =>
    intro vs
    induction vs with
    | nil => intro s; simp [pairTimeLoop_nil_r]
    | cons v vs ihv =>
      intro s
      rw [pairTimeLoop_cons]
      by_cases h : p.created_time ≤ v.created_time
      · rw [if_pos h]
        exact List.Sublist.cons₂ v (ihp vs (s + 1))
      · rw [if_neg h]
        exact List.Sublist.cons v (ihv s)

/-! ### zip / enum facts for order mode -/

theorem map_enumFrom_build_proj {α β γ : Type} (f : Nat → α → β) (g : β → γ)
    (pj : α → γ) (h : ∀ i a, g (f i a) = pj a) :
    ∀ (n : Nat) (l : List α),
      ((List.enumFrom n l).map (fun ia => f ia.1 ia.2)).map g = l.map pj := by
  intro n l
  induction l generalizing n with
  | nil => rfl
  | cons a t ih => simp [List.enumFrom, h, ih]

theorem map_fst_zip_take {α β : Type} :
    ∀ (l₁ : List α) (l₂ : List β),
      (l₁.zip l₂).map Prod.fst = l₁.take l₂.length := by
  intro l₁
  induction l₁ with
  | nil => intro l₂; simp
  | cons a t ih =>
    intro l₂
    cases l₂ with
    | nil => simp
    | cons b t₂ => simp [List.zip_cons_cons, ih]

theorem map_snd_zip_take {α β : Type} :
    ∀ (l₁ : List α) (l₂ : List β),
      (l₁.zip l₂).map Prod.snd = l₂.take l₁.length := by
  intro l₁
  induction l₁ with
  | nil => intro l₂; simp
  | cons a t ih =>
    intro l₂
    cases l₂ with
    | nil => simp
    | cons b t₂ => simp [List.zip_cons_cons, ih]

theorem photoSeqConsistent_of_nodup {pairs : List FilePair}
    (h : (pairs.map (fun pr => pr.photo.path)).Nodup) :
    PhotoSeqConsistent pairs := by
  intro pr hpr qr hqr hpath
  rw [List.inj_on_of_nodup_map h hpr hqr hpath]

/-! ### dict lemmas -/

theorem dictFind_insert_self {α : Type} (d : List (String × α)) (k : String)
    (v : α) : dictFind (dictInsert d k v) k = some v := by
  induction d with
  | nil => simp [dictInsert, dictFind]
  | cons e rest ih =>
    by_cases h : e.1 = k
    · rw [dictInsert, if_pos h, dictFind, if_pos rfl]
    · rw [dictInsert, if_neg h, dictFind, if_neg h, ih]

theorem dictFind_insert_ne {α : Type} (d : List (String × α)) (k : String)
    (v : α) (k' : String) (h : k' ≠ k) :
    dictFind (dictInsert d k v) k' = dictFind d k' := by
  have hkk : ¬ (k = k') := fun hEq => h hEq.symm
  induction d with
  | nil => simp [dictInsert, dictFind, hkk]
  | cons e rest ih =>
    by_cases he : e.1 = k
    · have he' : ¬ (e.1 = k') := by rw [he]; exact hkk
      rw [dictInsert, if_pos he, dictFind, if_neg hkk, dictFind, if_neg he']
    · rw [dictInsert, if_neg he, dictFind, dictFind]
      by_cases he' : e.1 = k'
      · rw [if_pos he', if_pos he']
      · rw [if_neg he', if_neg he', ih]

theorem mem_dictInsert {α : Type} {d : List (String × α)} {k : String} {v : α}
    {e : String × α} (h : e ∈ dictInsert d k v) : e = (k, v) ∨ e ∈ d := by
  induction d with
  | nil => simpa [dictInsert] using h
  | cons e₀ rest ih =>
    by_cases he : e₀.1 = k
    · rw [dictInsert, if_pos he] at h
      rcases List.mem_cons.1 h with rfl | h'
      · exact Or.inl rfl
      · exact Or.inr (List.mem_cons_of_mem _ h')
    · rw [dictInsert, if_neg he] at h
      rcases List.mem_cons.1 h with rfl | h'
      · exact Or.inr (List.mem_cons_self _ _)
      · rcases ih h' with h'' | h''
        · exact Or.inl h''
        · exact Or.inr (List.mem_cons_of_mem _ h'')

theorem keys_dictInsert {α : Type} (d : List (String × α)) (k : String) (v : α) :
    (dictInsert d k v).map Prod.fst =
      if k ∈ d.map Prod.fst then d.map Prod.fst else d.map Prod.fst ++ [k] := by
  induction d with
  | nil => simp [dictInsert]
  | cons e rest ih =>
    by_cases h : e.1 = k
    · rw [dictInsert, if_pos h]
      have : k ∈ (e :: rest).map Prod.fst := by simp [h.symm]
      rw [if_pos this]
      simp [h]
    · rw [dictInsert, if_neg h]
      by_cases hk : k ∈ rest.map Prod.fst
      · have : k ∈ (e :: rest).map Prod.fst := by simp [hk]
        rw [if_pos this]
        simp only [List.map_cons, List.cons.injEq, true_and]
        rw [ih, if_pos hk]
      · have : k ∉ (e :: rest).map Prod.fst := by
          simp only [List.map_cons, List.mem_cons]
          rintro (hEq | hmem)
          · exact h hEq.symm
          · exact hk hmem
        rw [if_neg this]
        simp only [List.map_cons, List.cons_append, List.cons.injEq, true_and]
        rw [ih, if_neg hk]

theorem keys_nodup_dictInsert {α : Type} {d : List (String × α)} {k : String}
    {v : α} (h : (d.map Prod.fst).Nodup) :
    ((dictInsert d k v).map Prod.fst).Nodup := by
  rw [keys_dictInsert]
  by_cases hk : k ∈ d.map Prod.fst
  · rw [if_pos hk]; exact h
  · rw [if_neg hk]
    rw [List.nodup_append]
    refine ⟨h, List.nodup_singleton k, ?_⟩
    intro x hx hxk
    rw [List.mem_singleton] at hxk
    subst hxk
    exact hk hx

theorem dictFind_none_iff {α : Type} (d : List (String × α)) (k : String) :
    dictFind d k = none ↔ k ∉ d.map Prod.fst := by
  induction d with
  | nil => simp [dictFind]
  | cons e rest ih =>
    rw [dictFind]
    by_cases h : e.1 = k
    · simp [h]
    · rw [if_neg h]
      simp only [List.map_cons, List.mem_cons, ih]
      constructor
      · rintro hn (hEq | hmem)
        · exact h hEq.symm
        · exact hn hmem
      · intro hn hmem
        exact hn (Or.inr hmem)

theorem dictFind_isSome_iff {α : Type} (d : List (String × α)) (k : String) :
    (dictFind d k).isSome ↔ k ∈ d.map Prod.fst := by
  rcases hd : dictFind d k with _ | v
  · simpa [hd] using (dictFind_none_iff d k).1 hd
  · have : k ∈ d.map Prod.fst := by
      by_contra hk
      rw [(dictFind_none_iff d k).2 hk] at hd
      exact Option.noConfusion hd
    simpa [hd] using this

theorem dictFind_some_mem {α : Type} {d : List (String × α)} {k : String}
    {v : α} (h : dictFind d k = some v) : (k, v) ∈ d := by
  induction d with
  | nil => simp [dictFind] at h
  | cons e rest ih =>
    rw [dictFind] at h
    by_cases he : e.1 = k
    · rw [if_pos he] at h
      obtain rfl := Option.some.inj h
      have : e = (k, e.2) := by
        rw [← he]
      exact this ▸ List.mem_cons_self _ _
    · rw [if_neg he] at h
      exact List.mem_cons_of_mem _ (ih h)

theorem dictFind_mem_of_nodup {α : Type} {d : List (String × α)} {k : String}
    {v : α} (hnd : (d.map Prod.fst).Nodup) (h : (k, v) ∈ d) :
    dictFind d k = some v := by
  induction d with
  | nil => simp at h
  | cons e rest ih =>
    rcases List.mem_cons.1 h with rfl | hmem
    · rw [dictFind, if_pos rfl]
    · rw [dictFind]
      have hk : k ∈ rest.map Prod.fst := List.mem_map_of_mem Prod.fst hmem
      have he : e.1 ≠ k := by
        intro hEq
        exact (List.nodup_cons.1 (by simpa using hnd)).1 (hEq ▸ hk)
      rw [if_neg he]
      exact ih (List.nodup_cons.1 (by simpa using hnd)).2 hmem

/-! ### videoFramesKeys / photoScores / photoVideoScores facts -/

theorem videoFrames_fold (ctx : MatchCtx) :
    ∀ (l : List String) (d : List (String × Unit)),
      (d.map Prod.fst).Nodup →
      (((l.foldl (fun d v => if ctx.frameOk v then dictInsert d v Unit.unit else d)
          d).map Prod.fst).Nodup ∧
        ∀ k, k ∈ (l.foldl
            (fun d v => if ctx.frameOk v then dictInsert d v Unit.unit else d)
            d).map Prod.fst ↔ ((k ∈ l ∧ ctx.frameOk k) ∨ k ∈ d.map Prod.fst)) := by
  intro l
  induction l with
  | nil => intro d hnd; exact ⟨hnd, fun k => by simp⟩
  | cons v l ih =>
    intro d hnd
    rw [List.foldl_cons]
    by_cases hv : ctx.frameOk v
    · rw [if_pos hv]
      obtain ⟨ih1, ih2⟩ := ih (dictInsert d v Unit.unit) (keys_nodup_dictInsert hnd)
      refine ⟨ih1, fun k => ?_⟩
      rw [ih2 k]
      have hins : k ∈ (dictInsert d v Unit.unit).map Prod.fst ↔
          k = v ∨ k ∈ d.map Prod.fst := by
        rw [keys_dictInsert]
        by_cases hvd : v ∈ d.map Prod.fst
        · rw [if_pos hvd]
          constructor
          · exact Or.inr
          · rintro (rfl | hk)
            · exact hvd
            · exact hk
        · rw [if_neg hvd]
          simp only [List.mem_append, List.mem_singleton]
          tauto
      rw [hins]
      constructor
      · rintro (⟨hkl, hkf⟩ | rfl | hkd)
        · exact Or.inl ⟨List.mem_cons_of_mem _ hkl, hkf⟩
        · exact Or.inl ⟨List.mem_cons_self _ _, hv⟩
        · exact Or.inr hkd
      · rintro (⟨hkl, hkf⟩ | hkd)
        · rcases List.mem_cons.1 hkl with rfl | hkl'
          · exact Or.inr (Or.inl rfl)
          · exact Or.inl ⟨hkl', hkf⟩
        · exact Or.inr (Or.inr hkd)
    · rw [if_neg hv]
      obtain ⟨ih1, ih2⟩ := ih d hnd
      refine ⟨ih1, fun k => ?_⟩
      rw [ih2 k]
      constructor
      · rintro (⟨hkl, hkf⟩ | hkd)
        · exact Or.inl ⟨List.mem_cons_of_mem _ hkl, hkf⟩
        · exact Or.inr hkd
      · rintro (⟨hkl, hkf⟩ | hkd)
        · rcases List.mem_cons.1 hkl with rfl | hkl'
          · exact absurd hkf hv
          · exact Or.inl ⟨hkl', hkf⟩
        · exact Or.inr hkd

theorem videoFramesKeys_nodup (ctx : MatchCtx) (video_paths : List String) :
    (videoFramesKeys ctx video_paths).Nodup :=
  (videoFrames_fold ctx video_paths [] (by simp)).1

theorem mem_videoFramesKeys (ctx : MatchCtx) (video_paths : List String)
    (k : String) :
    k ∈ videoFramesKeys ctx video_paths ↔ k ∈ video_paths ∧ ctx.frameOk k := by
  rw [videoFramesKeys]
  rw [(videoFrames_fold ctx video_paths [] (by simp)).2 k]
  simp

theorem mem_photoScores (ctx : MatchCtx) (vf : List String) (threshold : Rat)
    (p : String) (v : String) (s : Rat) :
    (v, s) ∈ photoScores ctx vf threshold p ↔
      v ∈ vf ∧ threshold ≤ ctx.sim p v ∧ s = ctx.sim p v := by
  rw [photoScores]
  rw [(List.perm_insertionSort (fun a b : String × Rat => b.2 ≤ a.2) _).mem_iff]
  rw [List.mem_filterMap]
  constructor
  · rintro ⟨v', hv', hsome⟩
    by_cases hth : threshold ≤ ctx.sim p v'
    · rw [if_pos hth] at hsome
      obtain ⟨rfl, rfl⟩ := Prod.mk.inj (Option.some.inj hsome)
      exact ⟨hv', hth, rfl⟩
    · rw [if_neg hth] at hsome
      exact Option.noConfusion hsome
  · rintro ⟨hv, hth, rfl⟩
    exact ⟨v, hv, by rw [if_pos hth]⟩

theorem photoScores_perm (ctx : MatchCtx) (vf : List String) (threshold : Rat)
    (p : String) :
    (photoScores ctx vf threshold p).Perm
      (vf.filterMap (fun v =>
        if threshold ≤ ctx.sim p v then some (v, ctx.sim p v) else none)) :=
  List.perm_insertionSort _ _

theorem dictFind_photoVideoScores (ctx : MatchCtx) (vf : List String)
    (threshold : Rat) :
    ∀ (pps : List String) (d : List (String × List (String × Rat))) (q : String),
      dictFind
        (pps.foldl
          (fun d p =>
            if ctx.loadOk p then dictInsert d p (photoScores ctx vf threshold p)
            else d) d) q =
        if q ∈ pps ∧ ctx.loadOk q then some (photoScores ctx vf threshold q)
        else dictFind d q := by
  intro pps
  induction pps with
  | nil => intro d q; simp
  | cons p pps ih =>
    intro d q
    rw [List.foldl_cons, ih]
    by_cases hq : q ∈ pps ∧ ctx.loadOk q
    · rw [if_pos hq, if_pos ⟨List.mem_cons_of_mem _ hq.1, hq.2⟩]
    · rw [if_neg hq]
      by_cases hpq : p = q
      · subst hpq
        by_cases hl : ctx.loadOk p
        · rw [if_pos hl, if_pos ⟨List.mem_cons_self _ _, hl⟩, dictFind_insert_self]
        · rw [if_neg hl, if_neg ?_]
          intro hc
          exact hl hc.2
      · have hcond : ¬ (q ∈ p :: pps ∧ ctx.loadOk q) := by
          rintro ⟨hmem, hl⟩
          rcases List.mem_cons.1 hmem with rfl | hmem'
          · exact hpq rfl
          · exact hq ⟨hmem', hl⟩
        rw [if_neg hcond]
        by_cases hl : ctx.loadOk p
        · rw [if_pos hl, dictFind_insert_ne _ _ _ _ (fun hEq => hpq hEq.symm)]
        · rw [if_neg hl]

theorem photoVideoScores_find (ctx : MatchCtx) (vf : List String)
    (threshold : Rat) (pps : List String) (q : String) :
    dictFind (photoVideoScores ctx vf threshold pps) q =
      if q ∈ pps ∧ ctx.loadOk q then some (photoScores ctx vf threshold q)
      else none := by
  rw [photoVideoScores, dictFind_photoVideoScores]
  by_cases h : q ∈ pps ∧ ctx.loadOk q
  · rw [if_pos h, if_pos h]
  · rw [if_neg h, if_neg h, dictFind]

theorem photoVideoScores_mem (ctx : MatchCtx) (vf : List String)
    (threshold : Rat) :
    ∀ (pps : List String) (d : List (String × List (String × Rat)))
      (e : String × List (String × Rat)),
      e ∈ pps.foldl
        (fun d p =>
          if ctx.loadOk p then dictInsert d p (photoScores ctx vf threshold p)
          else d) d →
      (e.1 ∈ pps ∧ ctx.loadOk e.1 ∧ e.2 = photoScores ctx vf threshold e.1) ∨
        e ∈ d := by
  intro pps
  induction pps with
  | nil => intro d e he; exact Or.inr he
  | cons p pps ih =>
    intro d e he
    rw [List.foldl_cons] at he
    by_cases hl : ctx.loadOk p
    · rw [if_pos hl] at he
      rcases ih _ e he with h | h
      · exact Or.inl ⟨List.mem_cons_of_mem _ h.1, h.2⟩
      · rcases mem_dictInsert h with rfl | h'
        · exact Or.inl ⟨List.mem_cons_self _ _, hl, rfl⟩
        · exact Or.inr h'
    · rw [if_neg hl] at he
      rcases ih _ e he with h | h
      · exact Or.inl ⟨List.mem_cons_of_mem _ h.1, h.2⟩
      · exact Or.inr h

/-! ### videoToPhoto via the candidate stream -/

/-- One winner-take-all update for a single candidate triple
`(photo, video, score)`; identical to `v2pStep` with the photo bundled. -/
def candStep (d : List (String × (String × Rat)))
    (c : String × String × Rat) : List (String × (String × Rat)) :=
  match dictFind d c.2.1 with
  | none => dictInsert d c.2.1 (c.1, c.2.2)
  | some pr => if pr.2 < c.2.2 then dictInsert d c.2.1 (c.1, c.2.2) else d

/-- The candidate triples `(photo, video, score)` of `photo_video_scores`,
in processing order. -/
def allCands (pvs : List (String × List (String × Rat))) :
    List (String × String × Rat) :=
  (pvs.map (fun e => e.2.map (fun vs => (e.1, vs)))).flatten

theorem videoToPhoto_eq_candFold (pvs : List (String × List (String × Rat))) :
    videoToPhoto pvs = (allCands pvs).foldl candStep [] := by
  rw [videoToPhoto, allCands, List.foldl_flatten, List.foldl_map]
  congr 1
  funext d e
  rw [List.foldl_map]
  rfl

/-- Invariant of the winner-take-all fold: every entry of the dict is one of
the processed candidates and its score dominates every processed candidate
for the same video. -/
def CandInv (d : List (String × (String × Rat)))
    (P : List (String × String × Rat)) : Prop :=
  ∀ v p₀ s₀, dictFind d v = some (p₀, s₀) →
    ((p₀, v, s₀) ∈ P ∧ ∀ c ∈ P, c.2.1 = v → c.2.2 ≤ s₀)

theorem dictFind_isSome_insert {α : Type} (d : List (String × α)) (k k' : String)
    (v : α) (h : (dictFind d k).isSome) :
    (dictFind (dictInsert d k' v) k).isSome := by
  by_cases hk : k = k'
  · subst hk; rw [dictFind_insert_self]; rfl
  · rw [dictFind_insert_ne _ _ _ _ hk]; exact h

theorem candStep_inv {d : List (String × (String × Rat))}
    {P : List (String × String × Rat)} (hinv : CandInv d P)
    (hcov : ∀ c ∈ P, (dictFind d c.2.1).isSome) (c : String × String × Rat) :
    CandInv (candStep d c) (P ++ [c]) ∧
      (∀ c' ∈ P ++ [c], (dictFind (candStep d c) c'.2.1).isSome) := by
  rcases hd : dictFind d c.2.1 with _ | pr
  · -- the video is new: insert
    have hstep : candStep d c = dictInsert d c.2.1 (c.1, c.2.2) := by
      rw [candStep, hd]
    have hnotP : ∀ c' ∈ P, c'.2.1 ≠ c.2.1 := by
      intro c' hc' hEq
      have := hcov c' hc'
      rw [hEq, hd] at this
      exact Bool.noConfusion this
    constructor
    · intro v p₀ s₀ hfind
      rw [hstep] at hfind
      by_cases hv : v = c.2.1
      · subst hv
        rw [dictFind_insert_self] at hfind
        obtain ⟨rfl, rfl⟩ := Prod.mk.inj (Option.some.inj hfind)
        refine ⟨List.mem_append_right _ (by simp), ?_⟩
        intro c' hc' hEq
        rcases List.mem_append.1 hc' with hc'p | hc'c
        · exact absurd hEq (hnotP c' hc'p)
        · rw [List.mem_singleton] at hc'c
          subst hc'c
          exact le_refl _
      · rw [dictFind_insert_ne _ _ _ _ hv] at hfind
        obtain ⟨hmem, hmax⟩ := hinv v p₀ s₀ hfind
        refine ⟨List.mem_append_left _ hmem, ?_⟩
        intro c' hc' hEq
        rcases List.mem_append.1 hc' with hc'p | hc'c
        · exact hmax c' hc'p hEq
        · rw [List.mem_singleton] at hc'c
          subst hc'c
          exact absurd hEq.symm hv
    · intro c' hc'
      rw [hstep]
      rcases List.mem_append.1 hc' with hc'p | hc'c
      · exact dictFind_isSome_insert _ _ _ _ (hcov c' hc'p)
      · rw [List.mem_singleton] at hc'c
        subst hc'c
        rw [dictFind_insert_self]; rfl
  · by_cases hlt : pr.2 < c.2.2
    · -- steal: insert the better candidate
      have hstep : candStep d c = dictInsert d c.2.1 (c.1, c.2.2) := by
        rw [candStep, hd]
        exact if_pos hlt
      constructor
      · intro v p₀ s₀ hfind
        rw [hstep] at hfind
        by_cases hv : v = c.2.1
        · subst hv
          rw [dictFind_insert_self] at hfind
          obtain ⟨rfl, rfl⟩ := Prod.mk.inj (Option.some.inj hfind)
          refine ⟨List.mem_append_right _ (by simp), ?_⟩
          intro c' hc' hEq
          rcases List.mem_append.1 hc' with hc'p | hc'c
          · obtain ⟨_, hmax⟩ := hinv c.2.1 pr.1 pr.2 (by simpa using hd)
            exact le_trans (hmax c' hc'p hEq) (le_of_lt hlt)
          · rw [List.mem_singleton] at hc'c
            subst hc'c
            exact le_refl _
        · rw [dictFind_insert_ne _ _ _ _ hv] at hfind
          obtain ⟨hmem, hmax⟩ := hinv v p₀ s₀ hfind
          refine ⟨List.mem_append_left _ hmem, ?_⟩
          intro c' hc' hEq
          rcases List.mem_append.1 hc' with hc'p | hc'c
          · exact hmax c' hc'p hEq
          · rw [List.mem_singleton] at hc'c
            subst hc'c
            exact absurd hEq.symm hv
      · intro c' hc'
        rw [hstep]
        rcases List.mem_append.1 hc' with hc'p | hc'c
        · exact dictFind_isSome_insert _ _ _ _ (hcov c' hc'p)
        · rw [List.mem_singleton] at hc'c
          subst hc'c
          rw [dictFind_insert_self]; rfl
    · -- keep the incumbent
      have hstep : candStep d c = d := by
        rw [candStep, hd]
        exact if_neg hlt
      constructor
      · intro v p₀ s₀ hfind
        rw [hstep] at hfind
        obtain ⟨hmem, hmax⟩ := hinv v p₀ s₀ hfind
        refine ⟨List.mem_append_left _ hmem, ?_⟩
        intro c' hc' hEq
        rcases List.mem_append.1 hc' with hc'p | hc'c
        · exact hmax c' hc'p hEq
        · rw [List.mem_singleton] at hc'c
          subst hc'c
          subst hEq
          have : dictFind d c'.2.1 = some (p₀, s₀) := hfind
          rw [hd] at this
          obtain hpr := Option.some.inj this
          rw [hpr] at hlt
          exact le_of_not_lt hlt
      · intro c' hc'
        rw [hstep]
        rcases List.mem_append.1 hc' with hc'p | hc'c
        · exact hcov c' hc'p
        · rw [List.mem_singleton] at hc'c
          subst hc'c
          rw [hd]; rfl

theorem candFold_inv :
    ∀ (l : List (String × String × Rat)) (d : List (String × (String × Rat)))
      (P : List (String × String × Rat)),
      CandInv d P → (∀ c ∈ P, (dictFind d c.2.1).isSome) →
      CandInv (l.foldl candStep d) (P ++ l) ∧
        (∀ c ∈ P ++ l, (dictFind (l.foldl candStep d) c.2.1).isSome) := by
  intro l
  induction l with
  | nil =>
    intro d P h1 h2
    rw [List.foldl_nil, List.append_nil]
    exact ⟨h1, h2⟩
  | cons c l ih =>
    intro d P h1 h2
    rw [List.foldl_cons]
    obtain ⟨h1', h2'⟩ := candStep_inv h1 h2 c
    have hres := ih (candStep d c) (P ++ [c]) h1' h2'
    rw [List.append_assoc] at hres
    exact hres

theorem videoToPhoto_inv (pvs : List (String × List (String × Rat))) :
    CandInv (videoToPhoto pvs) (allCands pvs) ∧
      ∀ c ∈ allCands pvs, (dictFind (videoToPhoto pvs) c.2.1).isSome := by
  rw [videoToPhoto_eq_candFold]
  have := candFold_inv (allCands pvs) [] [] (fun v p₀ s₀ h => by simp [dictFind] at h)
    (fun c hc => by simp at hc)
  simpa using this

theorem candStep_keys_nodup {d : List (String × (String × Rat))}
    (h : (d.map Prod.fst).Nodup) (c : String × String × Rat) :
    ((candStep d c).map Prod.fst).Nodup := by
  rcases hd : dictFind d c.2.1 with _ | pr
  · have hstep : candStep d c = dictInsert d c.2.1 (c.1, c.2.2) := by
      rw [candStep, hd]
    rw [hstep]; exact keys_nodup_dictInsert h
  · by_cases hlt : pr.2 < c.2.2
    · have hstep : candStep d c = dictInsert d c.2.1 (c.1, c.2.2) := by
        rw [candStep, hd]; exact if_pos hlt
      rw [hstep]; exact keys_nodup_dictInsert h
    · have hstep : candStep d c = d := by
        rw [candStep, hd]; exact if_neg hlt
      rw [hstep]; exact h

theorem videoToPhoto_keys_nodup (pvs : List (String × List (String × Rat))) :
    ((videoToPhoto pvs).map Prod.fst).Nodup := by
  rw [videoToPhoto_eq_candFold]
  have : ∀ (l : List (String × String × Rat)) (d : List (String × (String × Rat))),
      (d.map Prod.fst).Nodup → ((l.foldl candStep d).map Prod.fst).Nodup := by
    intro l
    induction l with
    | nil => intro d h; exact h
    | cons c l ih => intro d h; rw [List.foldl_cons]; exact ih _ (candStep_keys_nodup h c)
  exact this _ [] (by simp)

theorem mem_allCands {pvs : List (String × List (String × Rat))}
    {c : String × String × Rat} :
    c ∈ allCands pvs ↔ ∃ e ∈ pvs, e.1 = c.1 ∧ (c.2.1, c.2.2) ∈ e.2 := by
  rw [allCands, List.mem_flatten]
  constructor
  · rintro ⟨l, hl, hcl⟩
    rw [List.mem_map] at hl
    obtain ⟨e, he, rfl⟩ := hl
    rw [List.mem_map] at hcl
    obtain ⟨vs, hvs, rfl⟩ := hcl
    exact ⟨e, he, rfl, hvs⟩
  · rintro ⟨e, he, h1, h2⟩
    refine ⟨e.2.map (fun vs => (e.1, vs)), List.mem_map_of_mem _ he, ?_⟩
    rw [List.mem_map]
    exact ⟨(c.2.1, c.2.2), h2, by rw [h1]⟩

/-! ### photoToVideos facts -/

/-- All video paths appearing in the values of a photo-to-videos dict, in
dict order. -/
def joinedVids (d : List (String × List (String × Rat))) : List String :=
  (d.map (fun e => e.2.map Prod.fst)).flatten

theorem photoToVideos_values_nonempty (v2p : List (String × (String × Rat))) :
    ∀ e ∈ photoToVideos v2p, e.2 ≠ [] := by
  rw [photoToVideos]
  have : ∀ (l : List (String × (String × Rat)))
      (d : List (String × List (String × Rat))),
      (∀ e ∈ d, e.2 ≠ []) → ∀ e ∈ l.foldl p2vStep d, e.2 ≠ [] := by
    intro l
    induction l with
    | nil => intro d h; exact h
    | cons c l ih =>
      intro d h
      rw [List.foldl_cons]
      refine ih _ ?_
      intro e he
      rw [p2vStep] at he
      rcases hd : dictFind d c.2.1 with _ | vs
      · rw [hd] at he
        rcases mem_dictInsert he with rfl | he'
        · simp
        · exact h e he'
      · rw [hd] at he
        rcases mem_dictInsert he with rfl | he'
        · simp
        · exact h e he'
  exact this v2p [] (fun e he => absurd he (List.not_mem_nil e))

theorem p2vStep_find_preserve {d : List (String × List (String × Rat))}
    {q : String} {vs : List (String × Rat)} (h : dictFind d q = some vs)
    (c : String × (String × Rat)) :
    ∃ vs', dictFind (p2vStep d c) q = some vs' ∧ ∀ x ∈ vs, x ∈ vs' := by
  rw [p2vStep]
  by_cases hq : q = c.2.1
  · subst hq
    rw [h]
    refine ⟨vs ++ [(c.1, c.2.2)], ?_, fun x hx => List.mem_append_left _ hx⟩
    rw [dictFind_insert_self]
  · rcases hd : dictFind d c.2.1 with _ | ws
    · refine ⟨vs, ?_, fun x hx => hx⟩
      rw [dictFind_insert_ne _ _ _ _ hq, h]
    · refine ⟨vs, ?_, fun x hx => hx⟩
      rw [dictFind_insert_ne _ _ _ _ hq, h]

theorem photoToVideos_mem_transfer (v2p : List (String × (String × Rat))) :
    ∀ c ∈ v2p, ∃ vs, dictFind (photoToVideos v2p) c.2.1 = some vs ∧
      (c.1, c.2.2) ∈ vs := by
  rw [photoToVideos]
  have : ∀ (l : List (String × (String × Rat)))
      (d : List (String × List (String × Rat))),
      (∀ c ∈ l, ∀ vs, dictFind d c.2.1 = some vs → True) →
      ∀ c, (∃ vs, dictFind d c.2.1 = some vs ∧ (c.1, c.2.2) ∈ vs) ∨ c ∈ l →
      c ∈ l ∨ (∃ vs, dictFind d c.2.1 = some vs ∧ (c.1, c.2.2) ∈ vs) →
      True := fun _ _ _ _ _ _ => trivial
  clear this
  suffices h : ∀ (l : List (String × (String × Rat)))
      (d : List (String × List (String × Rat))) (c : String × (String × Rat)),
      (c ∈ l ∨ ∃ vs, dictFind d c.2.1 = some vs ∧ (c.1, c.2.2) ∈ vs) →
      ∃ vs, dictFind (l.foldl p2vStep d) c.2.1 = some vs ∧ (c.1, c.2.2) ∈ vs by
    intro c hc
    exact h v2p [] c (Or.inl hc)
  intro l
  induction l with
  | nil =>
    intro d c hc
    rcases hc with hc | hc
    · exact absurd hc (List.not_mem_nil c)
    · exact hc
  | cons c₀ l ih =>
    intro d c hc
    rw [List.foldl_cons]
    rcases hc with hc | ⟨vs, hvs, hmem⟩
    · rcases List.mem_cons.1 hc with rfl | hc'
      · -- c is processed right now
        refine ih _ c (Or.inr ?_)
        rw [p2vStep]
        rcases hd : dictFind d c.2.1 with _ | ws
        · exact ⟨[(c.1, c.2.2)], by rw [dictFind_insert_self], by simp⟩
        · exact ⟨ws ++ [(c.1, c.2.2)], by rw [dictFind_insert_self],
            List.mem_append_right _ (by simp)⟩
      · exact ih _ c (Or.inl hc')
    · obtain ⟨vs', hvs', hsub⟩ := p2vStep_find_preserve hvs c₀
      exact ih _ c (Or.inr ⟨vs', hvs', hsub _ hmem⟩)


theorem joinedVids_cons (e : String × List (String × Rat))
    (rest : List (String × List (String × Rat))) :
    joinedVids (e :: rest) = e.2.map Prod.fst ++ joinedVids rest := by
  rw [joinedVids, List.map_cons, List.flatten_cons, joinedVids]

theorem joinedVids_dictInsert_new {d : List (String × List (String × Rat))}
    {k : String} (h : dictFind d k = none) (vs : List (String × Rat)) :
    joinedVids (dictInsert d k vs) = joinedVids d ++ vs.map Prod.fst := by
  induction d with
  | nil => simp [dictInsert, joinedVids]
  | cons e rest ih =>
    rw [dictFind] at h
    by_cases he : e.1 = k
    · rw [if_pos he] at h
      exact Option.noConfusion h
    · rw [if_neg he] at h
      rw [dictInsert, if_neg he, joinedVids_cons, joinedVids_cons, ih h,
        List.append_assoc]

theorem joinedVids_dictInsert_append {d : List (String × List (String × Rat))}
    {k : String} {vs : List (String × Rat)} (h : dictFind d k = some vs)
    (x : String × Rat) :
    (joinedVids (dictInsert d k (vs ++ [x]))).Perm (joinedVids d ++ [x.1]) := by
  induction d with
  | nil => simp [dictFind] at h
  | cons e rest ih =>
    rw [dictFind] at h
    by_cases he : e.1 = k
    · rw [if_pos he] at h
      obtain rfl := Option.some.inj h
      rw [dictInsert, if_pos he, joinedVids_cons, joinedVids_cons]
      rw [List.map_append, List.append_assoc, List.append_assoc]
      refine List.Perm.append_left _ ?_
      have hcomm := @List.perm_append_comm String ([x].map Prod.fst) (joinedVids rest)
      simpa using hcomm
    · rw [if_neg he] at h
      rw [dictInsert, if_neg he, joinedVids_cons, joinedVids_cons,
        List.append_assoc]
      exact List.Perm.append_left _ (ih h)

theorem joinedVids_p2vStep (d : List (String × List (String × Rat)))
    (c : String × (String × Rat)) :
    (joinedVids (p2vStep d c)).Perm (joinedVids d ++ [c.1]) := by
  rcases hd : dictFind d c.2.1 with _ | vs
  · have hstep : p2vStep d c = dictInsert d c.2.1 [(c.1, c.2.2)] := by
      rw [p2vStep, hd]
    rw [hstep, joinedVids_dictInsert_new hd]
    simp
  · have hstep : p2vStep d c = dictInsert d c.2.1 (vs ++ [(c.1, c.2.2)]) := by
      rw [p2vStep, hd]
    rw [hstep]
    exact joinedVids_dictInsert_append hd (c.1, c.2.2)

theorem joinedVids_photoToVideos (v2p : List (String × (String × Rat))) :
    (joinedVids (photoToVideos v2p)).Perm (v2p.map Prod.fst) := by
  rw [photoToVideos]
  suffices h : ∀ (l : List (String × (String × Rat)))
      (d : List (String × List (String × Rat))),
      (joinedVids (l.foldl p2vStep d)).Perm (joinedVids d ++ l.map Prod.fst) by
    have hres := h v2p []
    simpa [joinedVids] using hres
  intro l
  induction l with
  | nil => intro d; simp
  | cons c l ih =>
    intro d
    rw [List.foldl_cons]
    have h1 := ih (p2vStep d c)
    have h2 := (joinedVids_p2vStep d c).append_right (l.map Prod.fst)
    have h3 := h1.trans h2
    rw [List.append_assoc] at h3
    rw [List.map_cons]
    exact h3.trans (List.Perm.refl _)

/-! ### match_photos_to_videos result facts -/

/-- The video paths of one result group. -/
def groupVids (g : String × List (String × Rat)) : List String :=
  g.2.map Prod.fst

/-- All video paths of a result set, in output order. -/
def matchesVideos (rs : List (String × List (String × Rat))) : List String :=
  (rs.map groupVids).flatten

/-- The fully-built `photo_to_videos` dict for a matching run. -/
def matchP2V (ctx : MatchCtx) (pps vps : List String) (th : Rat) :
    List (String × List (String × Rat)) :=
  photoToVideos (videoToPhoto
    (photoVideoScores ctx (videoFramesKeys ctx vps) th pps))

theorem match_multi_eq (ctx : MatchCtx) (pps vps : List String) (th : Rat) :
    match_photos_to_videos ctx pps vps th true =
      pps.filterMap (fun p =>
        match dictFind (matchP2V ctx pps vps th) p with
        | none => none
        | some vs =>
          some (p, List.insertionSort (fun a b : String × Rat => a.1 ≤ b.1) vs)) :=
  rfl

theorem mem_match_multi {ctx : MatchCtx} {pps vps : List String} {th : Rat}
    {g : String × List (String × Rat)} :
    g ∈ match_photos_to_videos ctx pps vps th true ↔
      g.1 ∈ pps ∧ ∃ vs, dictFind (matchP2V ctx pps vps th) g.1 = some vs ∧
        g.2 = List.insertionSort (fun a b : String × Rat => a.1 ≤ b.1) vs := by
  rw [match_multi_eq, List.mem_filterMap]
  constructor
  · rintro ⟨p, hp, hsome⟩
    rcases hd : dictFind (matchP2V ctx pps vps th) p with _ | vs
    · rw [hd] at hsome
      exact Option.noConfusion hsome
    · rw [hd] at hsome
      obtain rfl := Option.some.inj hsome
      exact ⟨hp, vs, hd, rfl⟩
  · rintro ⟨hp, vs, hd, hsort⟩
    refine ⟨g.1, hp, ?_⟩
    rw [hd]
    exact congrArg some (Prod.ext rfl hsort.symm)

theorem photoToVideos_mem_rev (v2p : List (String × (String × Rat))) :
    ∀ (p : String) (vs : List (String × Rat)),
      dictFind (photoToVideos v2p) p = some vs →
      ∀ x ∈ vs, (x.1, (p, x.2)) ∈ v2p := by
  rw [photoToVideos]
  suffices h : ∀ (l : List (String × (String × Rat)))
      (d : List (String × List (String × Rat)))
      (P : List (String × (String × Rat))),
      (∀ (p : String) (vs : List (String × Rat)),
        dictFind d p = some vs → ∀ x ∈ vs, (x.1, (p, x.2)) ∈ P) →
      ∀ (p : String) (vs : List (String × Rat)),
        dictFind (l.foldl p2vStep d) p = some vs →
        ∀ x ∈ vs, (x.1, (p, x.2)) ∈ P ++ l by
    intro p vs hfind x hx
    have := h v2p [] [] (fun p vs hf => by simp [dictFind] at hf) p vs hfind x hx
    simpa using this
  intro l
  induction l with
  | nil =>
    intro d P hinv p vs hfind x hx
    rw [List.append_nil]
    exact hinv p vs hfind x hx
  | cons c l ih =>
    intro d P hinv p vs hfind x hx
    rw [List.foldl_cons] at hfind
    have hstep : ∀ (q : String) (ws : List (String × Rat)),
        dictFind (p2vStep d c) q = some ws →
        ∀ y ∈ ws, (y.1, (q, y.2)) ∈ P ++ [c] := by
      intro q ws hq y hy
      by_cases hqc : q = c.2.1
      · rw [hqc] at hq ⊢
        rcases hd : dictFind d c.2.1 with _ | ws₀
        · have hstep2 : p2vStep d c = dictInsert d c.2.1 [(c.1, c.2.2)] := by
            rw [p2vStep, hd]
          rw [hstep2, dictFind_insert_self] at hq
          obtain rfl := Option.some.inj hq
          rw [List.mem_singleton] at hy
          subst hy
          exact List.mem_append_right _ (List.mem_singleton.mpr rfl)
        · have hstep2 : p2vStep d c = dictInsert d c.2.1 (ws₀ ++ [(c.1, c.2.2)]) := by
            rw [p2vStep, hd]
          rw [hstep2, dictFind_insert_self] at hq
          obtain rfl := Option.some.inj hq
          rcases List.mem_append.1 hy with hy' | hy'
          · exact List.mem_append_left _ (hinv c.2.1 ws₀ hd y hy')
          · rw [List.mem_singleton] at hy'
            subst hy'
            exact List.mem_append_right _ (List.mem_singleton.mpr rfl)
      · have hfq : dictFind (p2vStep d c) q = dictFind d q := by
          rcases hd : dictFind d c.2.1 with _ | ws₀
          · have hstep2 : p2vStep d c = dictInsert d c.2.1 [(c.1, c.2.2)] := by
              rw [p2vStep, hd]
            rw [hstep2, dictFind_insert_ne _ _ _ _ hqc]
          · have hstep2 : p2vStep d c = dictInsert d c.2.1 (ws₀ ++ [(c.1, c.2.2)]) := by
              rw [p2vStep, hd]
            rw [hstep2, dictFind_insert_ne _ _ _ _ hqc]
        rw [hfq] at hq
        exact List.mem_append_left _ (hinv q ws hq y hy)
    have := ih (p2vStep d c) (P ++ [c]) hstep p vs hfind x hx
    rw [List.append_assoc] at this
    exact this

theorem filterMap_keys_sublist {β : Type} (F : String → Option β)
    (key : β → String) (h : ∀ p g, F p = some g → key g = p) :
    ∀ (l : List String), ((l.filterMap F).map key).Sublist l := by
  intro l
  induction l with
  | nil => simp
  | cons p l ih =>
    rw [List.filterMap_cons]
    rcases hF : F p with _ | g
    · exact (ih).cons p
    · rw [List.map_cons, h p g hF]
      exact ih.cons₂ p

theorem matchesVideos_cons (g : String × List (String × Rat))
    (rs : List (String × List (String × Rat))) :
    matchesVideos (g :: rs) = groupVids g ++ matchesVideos rs := rfl

theorem mem_matchesVideos_filterMap (p2v : List (String × List (String × Rat)))
    (pps : List String) (x : String)
    (hx : x ∈ matchesVideos (pps.filterMap (fun p =>
      match dictFind p2v p with
      | none => none
      | some vs =>
        some (p, List.insertionSort (fun a b : String × Rat => a.1 ≤ b.1) vs)))) :
    ∃ q ∈ pps, ∃ ws, dictFind p2v q = some ws ∧ x ∈ ws.map Prod.fst := by
  rw [matchesVideos, List.mem_flatten] at hx
  obtain ⟨l, hl, hxl⟩ := hx
  rw [List.mem_map] at hl
  obtain ⟨g, hg, rfl⟩ := hl
  rw [List.mem_filterMap] at hg
  obtain ⟨q, hq, hsome⟩ := hg
  rcases hd : dictFind p2v q with _ | ws
  · rw [hd] at hsome
    exact Option.noConfusion hsome
  · rw [hd] at hsome
    obtain rfl := Option.some.inj hsome
    refine ⟨q, hq, ws, hd, ?_⟩
    have hperm :=
      (List.perm_insertionSort (fun a b : String × Rat => a.1 ≤ b.1) ws).map Prod.fst
    rw [groupVids] at hxl
    exact hperm.mem_iff.1 hxl

theorem p2v_value_disjoint {p2v : List (String × List (String × Rat))}
    (hj : (joinedVids p2v).Nodup) {p q : String} {vs ws : List (String × Rat)}
    (hp : dictFind p2v p = some vs) (hq : dictFind p2v q = some ws)
    (hpq : p ≠ q) : ∀ x ∈ vs.map Prod.fst, x ∉ ws.map Prod.fst := by
  have hpmem := dictFind_some_mem hp
  have hqmem := dictFind_some_mem hq
  have hne : ((p, vs) : String × List (String × Rat)) ≠ (q, ws) := by
    intro hEq
    exact hpq (congrArg Prod.fst hEq)
  rw [joinedVids, List.nodup_flatten] at hj
  have hpw := hj.2
  rw [List.pairwise_map] at hpw
  have hsymm : Symmetric (fun e₁ e₂ : String × List (String × Rat) =>
      List.Disjoint (e₁.2.map Prod.fst) (e₂.2.map Prod.fst)) := by
    intro e₁ e₂ h a ha hb
    exact h hb ha
  exact hpw.forall hsymm hpmem hqmem hne

theorem matchesVideos_filterMap_nodup (p2v : List (String × List (String × Rat)))
    (hj : (joinedVids p2v).Nodup) :
    ∀ (pps : List String), pps.Nodup →
      (matchesVideos (pps.filterMap (fun p =>
        match dictFind p2v p with
        | none => none
        | some vs =>
          some (p, List.insertionSort (fun a b : String × Rat => a.1 ≤ b.1) vs)))).Nodup := by
  intro pps
  induction pps with
  | nil => intro _; simp [matchesVideos]
  | cons p pps ih =>
    intro hnd
    have hptail : p ∉ pps := (List.nodup_cons.1 hnd).1
    have hndtail : pps.Nodup := (List.nodup_cons.1 hnd).2
    rcases hd : dictFind p2v p with _ | vs
    · have heq : (p :: pps).filterMap (fun p =>
          match dictFind p2v p with
          | none => none
          | some vs =>
            some (p, List.insertionSort (fun a b : String × Rat => a.1 ≤ b.1) vs)) =
          pps.filterMap (fun p =>
            match dictFind p2v p with
            | none => none
            | some vs =>
              some (p, List.insertionSort (fun a b : String × Rat => a.1 ≤ b.1) vs)) := by
        rw [List.filterMap_cons, hd]
      rw [heq]
      exact ih hndtail
    · have heq : (p :: pps).filterMap (fun p =>
          match dictFind p2v p with
          | none => none
          | some vs =>
            some (p, List.insertionSort (fun a b : String × Rat => a.1 ≤ b.1) vs)) =
          (p, List.insertionSort (fun a b : String × Rat => a.1 ≤ b.1) vs) ::
            pps.filterMap (fun p =>
              match dictFind p2v p with
              | none => none
              | some vs =>
                some (p, List.insertionSort (fun a b : String × Rat => a.1 ≤ b.1) vs)) := by
        rw [List.filterMap_cons, hd]
      rw [heq, matchesVideos, List.map_cons, List.flatten_cons, List.nodup_append]
      refine ⟨?_, ih hndtail, ?_⟩
      · have hvsnd : (vs.map Prod.fst).Nodup := by
          have hj' := hj
          rw [joinedVids, List.nodup_flatten] at hj'
          exact hj'.1 _ (List.mem_map_of_mem _ (dictFind_some_mem hd))
        have hperm :=
          (List.perm_insertionSort (fun a b : String × Rat => a.1 ≤ b.1) vs).map Prod.fst
        rw [groupVids]
        exact hvsnd.perm hperm.symm
      · intro x hx hx'
        have hxvs : x ∈ vs.map Prod.fst := by
          have hperm :=
            (List.perm_insertionSort (fun a b : String × Rat => a.1 ≤ b.1) vs).map Prod.fst
          rw [groupVids] at hx
          exact hperm.mem_iff.1 hx
        obtain ⟨q, hq, ws, hqd, hxws⟩ := mem_matchesVideos_filterMap p2v pps x hx'
        have hpq : p ≠ q := fun hEq => hptail (hEq ▸ hq)
        exact p2v_value_disjoint hj hd hqd hpq x hxvs hxws

/-! ### image-mode emission facts -/

/-- Every entry of a photo/video map built from files keyed by their own
path maps the key to a file carrying that path. -/
def PathConsistent (d : List (String × MediaFile)) : Prop :=
  ∀ e ∈ d, (e.2).path = e.1

theorem mediaDict_pathConsistent (files : List MediaFile) :
    PathConsistent (mediaDict files) := by
  rw [mediaDict]
  suffices h : ∀ (l : List MediaFile) (d : List (String × MediaFile)),
      PathConsistent d →
      PathConsistent (l.foldl (fun d f => dictInsert d f.path f) d) by
    exact h files [] (fun e he => absurd he (List.not_mem_nil e))
  intro l
  induction l with
  | nil => exact fun d h => h
  | cons f l ih =>
    intro d h
    rw [List.foldl_cons]
    refine ih _ ?_
    intro e he
    rcases mem_dictInsert he with rfl | he'
    · rfl
    · exact h e he'

theorem lookupMedia_path {d : List (String × MediaFile)} (h : PathConsistent d)
    (k : String) : (lookupMedia d k).path = k := by
  rw [lookupMedia]
  rcases hd : dictFind d k with _ | f
  · rfl
  · exact h (k, f) (dictFind_some_mem hd)

theorem imageEmit_two (pm vm : List (String × MediaFile)) (seq : Nat)
    (p : String) (vs₁ vs₂ : String × Rat) (t : List (String × Rat)) :
    imageEmit pm vm seq (p, vs₁ :: vs₂ :: t) =
      ((vs₁ :: vs₂ :: t).enum.map
        (fun ivs => (⟨lookupMedia pm p, lookupMedia vm ivs.2.1, seq,
          subLabelOf ivs.1⟩ : FilePair))) := rfl

theorem imageEmit_map_video (pm vm : List (String × MediaFile)) (seq : Nat)
    (m : String × List (String × Rat)) :
    (imageEmit pm vm seq m).map (fun pr => pr.video) =
      m.2.map (fun vs => lookupMedia vm vs.1) := by
  obtain ⟨p, l⟩ := m
  match l with
  | [] => rfl
  | [vs] => rfl
  | vs₁ :: vs₂ :: t =>
    rw [imageEmit_two]
    exact map_enumFrom_build_proj
      (fun (i : Nat) (vs : String × Rat) =>
        (⟨lookupMedia pm p, lookupMedia vm vs.1, seq, subLabelOf i⟩ : FilePair))
      (fun pr => pr.video) (fun vs : String × Rat => lookupMedia vm vs.1)
      (fun _ _ => rfl) 0 _

theorem imageEmit_length (pm vm : List (String × MediaFile)) (seq : Nat)
    (m : String × List (String × Rat)) :
    (imageEmit pm vm seq m).length = m.2.length := by
  have h := congrArg List.length (imageEmit_map_video pm vm seq m)
  simpa using h

theorem mem_imageEmit {pm vm : List (String × MediaFile)} {seq : Nat}
    {m : String × List (String × Rat)} {pr : FilePair}
    (hpr : pr ∈ imageEmit pm vm seq m) :
    pr.photo = lookupMedia pm m.1 ∧ pr.sequence = seq ∧
      ∃ vs ∈ m.2, pr.video = lookupMedia vm vs.1 := by
  obtain ⟨p, l⟩ := m
  match l with
  | [] => simp [imageEmit] at hpr
  | [vs] =>
    simp only [imageEmit, List.mem_singleton] at hpr
    subst hpr
    exact ⟨rfl, rfl, vs, by simp, rfl⟩
  | vs₁ :: vs₂ :: t =>
    rw [imageEmit_two, List.mem_map] at hpr
    obtain ⟨ivs, hivs, heq⟩ := hpr
    subst heq
    refine ⟨rfl, rfl, ivs.2, ?_, rfl⟩
    have hmem := List.mem_enum hivs
    exact hmem.2 ▸ List.getElem_mem _

theorem imageLoop_cons (pm vm : List (String × MediaFile))
    (m : String × List (String × Rat))
    (rest : List (String × List (String × Rat))) (seq : Nat) :
    imageLoop pm vm (m :: rest) seq =
      imageEmit pm vm seq m ++ imageLoop pm vm rest (seq + 1) := rfl

theorem imageLoop_seqGrouped (pm vm : List (String × MediaFile)) :
    ∀ (ms : List (String × List (String × Rat))) (seq : Nat),
      (∀ g ∈ ms, g.2 ≠ []) → SeqGroupedFrom seq (imageLoop pm vm ms seq) := by
  intro ms
  induction ms with
  | nil => intro seq _; exact seqGroupedFrom_nil seq
  | cons m rest ih =>
    intro seq hne
    rw [imageLoop_cons]
    refine seqGroupedFrom_cons ?_ ?_ (ih (seq + 1) (fun g hg => hne g (List.mem_cons_of_mem _ hg)))
    · intro hnil
      have hlen := congrArg List.length hnil
      rw [imageEmit_length] at hlen
      exact hne m (List.mem_cons_self _ _) (List.eq_nil_of_length_eq_zero (by simpa using hlen))
    · intro pr hpr
      exact (mem_imageEmit hpr).2.1

theorem imageLoop_photo_of_mem (pm vm : List (String × MediaFile)) :
    ∀ (ms : List (String × List (String × Rat))) (seq : Nat) (pr : FilePair),
      pr ∈ imageLoop pm vm ms seq →
      ∃ g ∈ ms, pr.photo = lookupMedia pm g.1 := by
  intro ms
  induction ms with
  | nil => intro seq pr hpr; simp [imageLoop] at hpr
  | cons m rest ih =>
    intro seq pr hpr
    rw [imageLoop_cons] at hpr
    rcases List.mem_append.1 hpr with hm | hm
    · exact ⟨m, List.mem_cons_self _ _, (mem_imageEmit hm).1⟩
    · obtain ⟨g, hg, hpg⟩ := ih (seq + 1) pr hm
      exact ⟨g, List.mem_cons_of_mem _ hg, hpg⟩

theorem imageLoop_photoConsistent {pm : List (String × MediaFile)}
    (vm : List (String × MediaFile)) (hpm : PathConsistent pm) :
    ∀ (ms : List (String × List (String × Rat))) (seq : Nat),
      (ms.map Prod.fst).Nodup →
      PhotoSeqConsistent (imageLoop pm vm ms seq) := by
  intro ms
  induction ms with
  | nil => intro seq _ pr hpr; simp [imageLoop] at hpr
  | cons m rest ih =>
    intro seq hnd pr hpr qr hqr hpath
    have hndtail : (rest.map Prod.fst).Nodup := (List.nodup_cons.1 (by simpa using hnd)).2
    have hmnot : m.1 ∉ rest.map Prod.fst := (List.nodup_cons.1 (by simpa using hnd)).1
    rw [imageLoop_cons] at hpr hqr
    have hsep : ∀ x : FilePair, x ∈ imageLoop pm vm rest (seq + 1) →
        x.photo.path ≠ m.1 := by
      intro x hx hEq
      obtain ⟨g, hg, hxg⟩ := imageLoop_photo_of_mem pm vm rest _ x hx
      rw [hxg, lookupMedia_path hpm] at hEq
      exact hmnot (hEq ▸ List.mem_map_of_mem Prod.fst hg)
    rcases List.mem_append.1 hpr with hm | hm <;>
      rcases List.mem_append.1 hqr with hm' | hm'
    · rw [(mem_imageEmit hm).2.1, (mem_imageEmit hm').2.1]
    · refine absurd ?_ (hsep qr hm')
      rw [← hpath, (mem_imageEmit hm).1, lookupMedia_path hpm]
    · refine absurd ?_ (hsep pr hm)
      rw [hpath, (mem_imageEmit hm').1, lookupMedia_path hpm]
    · exact ih (seq + 1) hndtail pr hm qr hm' hpath

theorem imageLoop_map_videopath (pm : List (String × MediaFile))
    {vm : List (String × MediaFile)} (hvm : PathConsistent vm) :
    ∀ (ms : List (String × List (String × Rat))) (seq : Nat),
      (imageLoop pm vm ms seq).map (fun pr => pr.video.path) = matchesVideos ms := by
  intro ms
  induction ms with
  | nil => intro seq; simp [imageLoop, matchesVideos]
  | cons m rest ih =>
    intro seq
    have hhead : (imageEmit pm vm seq m).map (fun pr => pr.video.path) =
        groupVids m := by
      have h := congrArg (List.map (fun f : MediaFile => f.path))
        (imageEmit_map_video pm vm seq m)
      rw [List.map_map, List.map_map] at h
      rw [show ((fun f : MediaFile => f.path) ∘ fun pr : FilePair => pr.video) =
        (fun pr : FilePair => pr.video.path) from rfl] at h
      rw [h, groupVids]
      refine List.map_congr_left ?_
      intro vs _
      exact lookupMedia_path hvm vs.1
    rw [imageLoop_cons, List.map_append, ih (seq + 1), matchesVideos_cons, hhead]

/-! ### pair_files mode equations -/

theorem pair_files_image_eq (ctx : MatchCtx) (birth : String → Int)
    (mf : List MediaFile) :
    pair_files ctx birth mf "image" =
      (imageLoop (mediaDict (mf.filter (fun f => !f.is_video)))
        (mediaDict (mf.filter (fun f => f.is_video)))
        (match_photos_to_videos ctx
          ((mf.filter (fun f => !f.is_video)).map (fun f => f.path))
          ((mf.filter (fun f => f.is_video)).map (fun f => f.path)) (1 / 10) true) 1,
       countWarn (mf.filter (fun f => !f.is_video))
         (mf.filter (fun f => f.is_video))) := rfl

theorem pair_files_order_eq (ctx : MatchCtx) (birth : String → Int)
    (mf : List MediaFile) :
    pair_files ctx birth mf "order" =
      (((List.insertionSort (fun a b : MediaFile => a.path ≤ b.path)
          (mf.filter (fun f => !f.is_video))).zip
        (List.insertionSort (fun a b : MediaFile => birth a.path ≤ birth b.path)
          (mf.filter (fun f => f.is_video)))).enum.map
          (fun ipv => (⟨ipv.2.1, ipv.2.2, ipv.1 + 1, ""⟩ : FilePair)),
       countWarn (mf.filter (fun f => !f.is_video))
           (mf.filter (fun f => f.is_video)) ++
         (if (mf.filter (fun f => f.is_video)).length <
              (mf.filter (fun f => !f.is_video)).length then
            ((List.insertionSort (fun a b : MediaFile => a.path ≤ b.path)
              (mf.filter (fun f => !f.is_video))).drop
                (mf.filter (fun f => f.is_video)).length).map
              (fun f => Warning.unmatchedPhoto f.path)
          else if (mf.filter (fun f => !f.is_video)).length <
              (mf.filter (fun f => f.is_video)).length then
            ((List.insertionSort
              (fun a b : MediaFile => birth a.path ≤ birth b.path)
              (mf.filter (fun f => f.is_video))).drop
                (mf.filter (fun f => !f.is_video)).length).map
              (fun f => Warning.unmatchedVideo f.path)
          else [])) := rfl

theorem pair_files_time_eq (ctx : MatchCtx) (birth : String → Int)
    (mf : List MediaFile) :
    pair_files ctx birth mf "time" =
      ((pairTimeLoop (mf.filter (fun f => !f.is_video))
          (mf.filter (fun f => f.is_video)) 1).1,
       countWarn (mf.filter (fun f => !f.is_video))
           (mf.filter (fun f => f.is_video)) ++
         (pairTimeLoop (mf.filter (fun f => !f.is_video))
           (mf.filter (fun f => f.is_video)) 1).2) := rfl

theorem pair_files_by_time_fst (mf : List MediaFile) (tol : Int) :
    (pair_files_by_time mf tol).1 =
      (byTimeLoop tol (mf.filter (fun f => f.is_video))
        (mf.filter (fun f => !f.is_video)) [] 1).1 := rfl

/-! ### order-mode pair construction facts -/

theorem orderPairs_facts (ps vs : List MediaFile) :
    ((ps.zip vs).enum.map
        (fun ipv => (⟨ipv.2.1, ipv.2.2, ipv.1 + 1, ""⟩ : FilePair))).length =
      min ps.length vs.length ∧
    ((ps.zip vs).enum.map
        (fun ipv => (⟨ipv.2.1, ipv.2.2, ipv.1 + 1, ""⟩ : FilePair))).map
        (fun pr => pr.photo) = ps.take vs.length ∧
    ((ps.zip vs).enum.map
        (fun ipv => (⟨ipv.2.1, ipv.2.2, ipv.1 + 1, ""⟩ : FilePair))).map
        (fun pr => pr.video) = vs.take ps.length ∧
    ((ps.zip vs).enum.map
        (fun ipv => (⟨ipv.2.1, ipv.2.2, ipv.1 + 1, ""⟩ : FilePair))).map
        (fun pr => pr.sequence) = List.range' 1 (min ps.length vs.length) := by
  refine ⟨?_, ?_, ?_, ?_⟩
  · rw [List.length_map, List.enum_length, List.length_zip]
  · have h := map_enumFrom_build_proj
      (fun (i : Nat) (pv : MediaFile × MediaFile) =>
        (⟨pv.1, pv.2, i + 1, ""⟩ : FilePair))
      (fun pr => pr.photo) Prod.fst (fun _ _ => rfl) 0 (ps.zip vs)
    rw [map_fst_zip_take] at h
    exact h
  · have h := map_enumFrom_build_proj
      (fun (i : Nat) (pv : MediaFile × MediaFile) =>
        (⟨pv.1, pv.2, i + 1, ""⟩ : FilePair))
      (fun pr => pr.video) Prod.snd (fun _ _ => rfl) 0 (ps.zip vs)
    rw [map_snd_zip_take] at h
    exact h
  · have h := map_enumFrom_build_idx
      (fun (i : Nat) (pv : MediaFile × MediaFile) =>
        (⟨pv.1, pv.2, i + 1, ""⟩ : FilePair))
      (fun pr => pr.sequence) 1 (fun _ _ => rfl) 0 (ps.zip vs)
    rw [List.length_zip] at h
    exact h

/-! ### match result structural facts -/

theorem match_multi_groups_nonempty (ctx : MatchCtx) (pps vps : List String)
    (th : Rat) : ∀ g ∈ match_photos_to_videos ctx pps vps th true, g.2 ≠ [] := by
  intro g hg hnil
  obtain ⟨hp, vs, hd, hsort⟩ := mem_match_multi.1 hg
  have hvs : vs ≠ [] :=
    photoToVideos_values_nonempty _ _ (dictFind_some_mem hd)
  have hlen :=
    (List.perm_insertionSort (fun a b : String × Rat => a.1 ≤ b.1) vs).length_eq
  rw [← hsort, hnil] at hlen
  exact hvs (List.eq_nil_of_length_eq_zero hlen.symm)

theorem match_multi_keys_sublist (ctx : MatchCtx) (pps vps : List String)
    (th : Rat) :
    ((match_photos_to_videos ctx pps vps th true).map Prod.fst).Sublist pps := by
  rw [match_multi_eq]
  refine filterMap_keys_sublist _ Prod.fst ?_ pps
  intro p g hF
  rcases hd : dictFind (matchP2V ctx pps vps th) p with _ | vs
  · rw [hd] at hF
    exact Option.noConfusion hF
  · rw [hd] at hF
    obtain rfl := Option.some.inj hF
    rfl

theorem matchesVideos_match_multi_nodup (ctx : MatchCtx) (pps vps : List String)
    (th : Rat) (hnd : pps.Nodup) :
    (matchesVideos (match_photos_to_videos ctx pps vps th true)).Nodup := by
  rw [match_multi_eq]
  refine matchesVideos_filterMap_nodup _ ?_ pps hnd
  have hperm := joinedVids_photoToVideos
    (videoToPhoto (photoVideoScores ctx (videoFramesKeys ctx vps) th pps))
  have hkeys := videoToPhoto_keys_nodup
    (photoVideoScores ctx (videoFramesKeys ctx vps) th pps)
  exact hkeys.perm hperm.symm

/-! ### C1 -/

/-- C1: in every pairing mode (`pair_files` in image, order or time mode,
and `pair_files_by_time`), and for media files with distinct paths, the
result's sequence values taken in output order are the dense range `1..k`
(consecutive nonempty blocks numbered `1, 2, …`), and pairs sharing a photo
share one sequence value. -/
theorem c1_dense_sequence_range (ctx : MatchCtx) (birth : String → Int)
    (mf : List MediaFile) (tol : Int)
    (hnd : (mf.map (fun f => f.path)).Nodup) :
    (SeqGrouped (pair_files ctx birth mf "order").1 ∧
      PhotoSeqConsistent (pair_files ctx birth mf "order").1) ∧
    (SeqGrouped (pair_files ctx birth mf "time").1 ∧
      PhotoSeqConsistent (pair_files ctx birth mf "time").1) ∧
    (SeqGrouped (pair_files ctx birth mf "image").1 ∧
      PhotoSeqConsistent (pair_files ctx birth mf "image").1) ∧
    (SeqGrouped (pair_files_by_time mf tol).1 ∧
      PhotoSeqConsistent (pair_files_by_time mf tol).1) := by
  have hpnd : ((mf.filter (fun f => !f.is_video)).map (fun f => f.path)).Nodup :=
    List.Nodup.sublist ((List.filter_sublist mf).map (fun f => f.path)) hnd
  have hvnd : ((mf.filter (fun f => f.is_video)).map (fun f => f.path)).Nodup :=
    List.Nodup.sublist ((List.filter_sublist mf).map (fun f => f.path)) hnd
  have hpsort : (List.insertionSort (fun a b : MediaFile => a.path ≤ b.path)
      (mf.filter (fun f => !f.is_video))).Perm (mf.filter (fun f => !f.is_video)) :=
    List.perm_insertionSort _ _
  refine ⟨⟨?_, ?_⟩, ⟨?_, ?_⟩, ⟨?_, ?_⟩, ⟨?_, ?_⟩⟩
  · -- order: dense sequence
    rw [pair_files_order_eq]
    obtain ⟨h1, _, _, h4⟩ := orderPairs_facts
      (List.insertionSort (fun a b : MediaFile => a.path ≤ b.path)
        (mf.filter (fun f => !f.is_video)))
      (List.insertionSort (fun a b : MediaFile => birth a.path ≤ birth b.path)
        (mf.filter (fun f => f.is_video)))
    refine seqGroupedFrom_of_map_range' ?_
    rw [h1, h4]
  · -- order: photo consistency
    rw [pair_files_order_eq]
    obtain ⟨_, h2, _, _⟩ := orderPairs_facts
      (List.insertionSort (fun a b : MediaFile => a.path ≤ b.path)
        (mf.filter (fun f => !f.is_video)))
      (List.insertionSort (fun a b : MediaFile => birth a.path ≤ birth b.path)
        (mf.filter (fun f => f.is_video)))
    refine photoSeqConsistent_of_nodup ?_
    have hmm : (((List.insertionSort (fun a b : MediaFile => a.path ≤ b.path)
          (mf.filter (fun f => !f.is_video))).zip
        (List.insertionSort (fun a b : MediaFile => birth a.path ≤ birth b.path)
          (mf.filter (fun f => f.is_video)))).enum.map
          (fun ipv => (⟨ipv.2.1, ipv.2.2, ipv.1 + 1, ""⟩ : FilePair))).map
          (fun pr => pr.photo.path) =
        (((List.insertionSort (fun a b : MediaFile => a.path ≤ b.path)
          (mf.filter (fun f => !f.is_video))).take
            (List.insertionSort (fun a b : MediaFile => birth a.path ≤ birth b.path)
              (mf.filter (fun f => f.is_video))).length).map (fun f => f.path)) := by
      rw [show (fun pr : FilePair => pr.photo.path) =
        ((fun f : MediaFile => f.path) ∘ (fun pr : FilePair => pr.photo)) from rfl,
        ← List.map_map, h2]
    rw [hmm]
    refine List.Nodup.sublist
      ((List.take_sublist _ _).map (fun f : MediaFile => f.path)) ?_
    exact (hpsort.map (fun f : MediaFile => f.path)).nodup_iff.2 hpnd
  · -- time: dense sequence
    rw [pair_files_time_eq]
    exact seqGroupedFrom_of_map_range' (pairTimeLoop_seq _ _ 1)
  · -- time: photo consistency
    rw [pair_files_time_eq]
    refine photoSeqConsistent_of_nodup ?_
    have hsub := (pairTimeLoop_photos_sublist (mf.filter (fun f => !f.is_video))
      (mf.filter (fun f => f.is_video)) 1).map (fun f => f.path)
    rw [List.map_map] at hsub
    exact List.Nodup.sublist hsub hpnd
  · -- image: dense sequence
    rw [pair_files_image_eq]
    exact imageLoop_seqGrouped _ _ _ 1 (match_multi_groups_nonempty ctx _ _ _)
  · -- image: photo consistency
    rw [pair_files_image_eq]
    refine imageLoop_photoConsistent _ (mediaDict_pathConsistent _) _ 1 ?_
    refine List.Nodup.sublist (match_multi_keys_sublist ctx _ _ _) ?_
    exact hpnd
  · -- by_time: dense sequence
    rw [pair_files_by_time_fst]
    exact byTimeLoop_seqGrouped tol _ _ [] 1
  · -- by_time: photo consistency
    rw [pair_files_by_time_fst]
    exact byTimeLoop_photoConsistent tol _ _ [] 1 hpnd

/-- C1 witness: the theorem applied to a concrete five-file library. -/
theorem c1_dense_sequence_range_witness :
    ((([⟨"p1.jpg", false, 0, "exif"⟩, ⟨"v1.mp4", true, 10, "video_meta"⟩,
        ⟨"p2.jpg", false, 100, "exif"⟩, ⟨"v2.mp4", true, 110, "video_meta"⟩] :
        List MediaFile).map (fun f => f.path)).Nodup) ∧
    SeqGrouped (pair_files_by_time
      [⟨"p1.jpg", false, 0, "exif"⟩, ⟨"v1.mp4", true, 10, "video_meta"⟩,
        ⟨"p2.jpg", false, 100, "exif"⟩, ⟨"v2.mp4", true, 110, "video_meta"⟩] 60).1 := by
  refine ⟨by decide, ?_⟩
  exact (c1_dense_sequence_range ⟨fun _ => true, fun _ => true, fun _ _ => 0⟩
    (fun _ => 0) _ 60 (by decide)).2.2.2.1

/-! ### C2 -/

/-- C2: in every pairing mode, for media files with distinct paths, no
video path appears in more than one FilePair of the result set. -/
theorem c2_video_claimed_once (ctx : MatchCtx) (birth : String → Int)
    (mf : List MediaFile) (tol : Int)
    (hnd : (mf.map (fun f => f.path)).Nodup) :
    VideoNodup (pair_files ctx birth mf "order").1 ∧
    VideoNodup (pair_files ctx birth mf "time").1 ∧
    VideoNodup (pair_files ctx birth mf "image").1 ∧
    VideoNodup (pair_files_by_time mf tol).1 := by
  have hpnd : ((mf.filter (fun f => !f.is_video)).map (fun f => f.path)).Nodup :=
    List.Nodup.sublist ((List.filter_sublist mf).map (fun f => f.path)) hnd
  have hvnd : ((mf.filter (fun f => f.is_video)).map (fun f => f.path)).Nodup :=
    List.Nodup.sublist ((List.filter_sublist mf).map (fun f => f.path)) hnd
  have hvsort : (List.insertionSort
      (fun a b : MediaFile => birth a.path ≤ birth b.path)
      (mf.filter (fun f => f.is_video))).Perm (mf.filter (fun f => f.is_video)) :=
    List.perm_insertionSort _ _
  refine ⟨?_, ?_, ?_, ?_⟩
  · -- order mode
    rw [VideoNodup, pair_files_order_eq]
    obtain ⟨_, _, h3, _⟩ := orderPairs_facts
      (List.insertionSort (fun a b : MediaFile => a.path ≤ b.path)
        (mf.filter (fun f => !f.is_video)))
      (List.insertionSort (fun a b : MediaFile => birth a.path ≤ birth b.path)
        (mf.filter (fun f => f.is_video)))
    rw [show (fun pr : FilePair => pr.video.path) =
      ((fun f : MediaFile => f.path) ∘ (fun pr : FilePair => pr.video)) from rfl,
      ← List.map_map, h3]
    refine List.Nodup.sublist
      ((List.take_sublist _ _).map (fun f : MediaFile => f.path)) ?_
    exact (hvsort.map (fun f : MediaFile => f.path)).nodup_iff.2 hvnd
  · -- time mode
    rw [VideoNodup, pair_files_time_eq]
    have hsub := (pairTimeLoop_videos_sublist (mf.filter (fun f => !f.is_video))
      (mf.filter (fun f => f.is_video)) 1).map (fun f : MediaFile => f.path)
    rw [List.map_map] at hsub
    exact List.Nodup.sublist hsub hvnd
  · -- image mode
    rw [VideoNodup, pair_files_image_eq]
    have hvp := imageLoop_map_videopath
      (mediaDict (mf.filter (fun f => !f.is_video)))
      (mediaDict_pathConsistent (mf.filter (fun f => f.is_video)))
      (match_photos_to_videos ctx
        ((mf.filter (fun f => !f.is_video)).map (fun f => f.path))
        ((mf.filter (fun f => f.is_video)).map (fun f => f.path)) (1 / 10) true) 1
    rw [hvp]
    exact matchesVideos_match_multi_nodup ctx _ _ _ hpnd
  · -- by_time
    rw [VideoNodup, pair_files_by_time_fst]
    exact (byTimeLoop_video_paths tol _ _ [] 1).2.1

/-- C2 witness: the theorem applied to a concrete four-file library. -/
theorem c2_video_claimed_once_witness :
    ((([⟨"p1.jpg", false, 0, "exif"⟩, ⟨"v1.mp4", true, 10, "video_meta"⟩,
        ⟨"p2.jpg", false, 15, "exif"⟩, ⟨"v2.mp4", true, 20, "video_meta"⟩] :
        List MediaFile).map (fun f => f.path)).Nodup) ∧
    VideoNodup (pair_files_by_time
      [⟨"p1.jpg", false, 0, "exif"⟩, ⟨"v1.mp4", true, 10, "video_meta"⟩,
        ⟨"p2.jpg", false, 15, "exif"⟩, ⟨"v2.mp4", true, 20, "video_meta"⟩] 60).1 := by
  refine ⟨by decide, ?_⟩
  exact (c2_video_claimed_once ⟨fun _ => true, fun _ => true, fun _ _ => 0⟩
    (fun _ => 0) _ 60 (by decide)).2.2.2

/-! ### C3 -/

/-- C3: in `pair_files_by_time` with tolerance `tol`, a not-yet-claimed
video is collected for a photo exactly when its creation time lies in the
closed interval `[photo.created_time, photo.created_time + tol]` (both
bounds inclusive, and a video strictly before the photo never matches);
consequently every emitted pair respects the window. -/
theorem c3_tolerance_window (mf : List MediaFile) (tol : Int)
    (photo v : MediaFile) (videos : List MediaFile) (used : List String) :
    (∀ pr ∈ (pair_files_by_time mf tol).1,
      pr.photo.created_time ≤ pr.video.created_time ∧
        pr.video.created_time ≤ pr.photo.created_time + tol) ∧
    ((videos.map (fun x => x.path)).Nodup → v ∈ videos → v.path ∉ used →
      (v ∈ (collectMatches photo tol videos used).1 ↔
        (photo.created_time ≤ v.created_time ∧
          v.created_time ≤ photo.created_time + tol))) := by
  constructor
  · intro pr hpr
    rw [pair_files_by_time_fst] at hpr
    have hw := byTimeLoop_window tol _ _ [] 1 pr hpr
    rw [inWindow] at hw
    omega
  · intro hnd hv hu
    have hiff := collectMatches_mem_iff photo tol videos used v hnd hv hu
    rw [inWindow] at hiff
    constructor
    · intro hmem
      have := hiff.1 hmem
      omega
    · intro hw
      refine hiff.2 ?_
      omega

/-- C3 witness: with tolerance 60 and a photo at time 0, a video at exactly
time 60 is collected and a video at time 61 is not. -/
theorem c3_tolerance_window_witness :
    (⟨"v1.mp4", true, 60, "video_meta"⟩ : MediaFile) ∈
      (collectMatches ⟨"p.jpg", false, 0, "exif"⟩ 60
        [⟨"v1.mp4", true, 60, "video_meta"⟩, ⟨"v2.mp4", true, 61, "video_meta"⟩]
        []).1 ∧
    (⟨"v2.mp4", true, 61, "video_meta"⟩ : MediaFile) ∉
      (collectMatches ⟨"p.jpg", false, 0, "exif"⟩ 60
        [⟨"v1.mp4", true, 60, "video_meta"⟩, ⟨"v2.mp4", true, 61, "video_meta"⟩]
        []).1 := by
  constructor
  · exact ((c3_tolerance_window [] 60 ⟨"p.jpg", false, 0, "exif"⟩
      ⟨"v1.mp4", true, 60, "video_meta"⟩
      [⟨"v1.mp4", true, 60, "video_meta"⟩, ⟨"v2.mp4", true, 61, "video_meta"⟩]
      []).2 (by decide) (by decide) (by decide)).mpr (by decide)
  · intro hmem
    have hw := ((c3_tolerance_window [] 60 ⟨"p.jpg", false, 0, "exif"⟩
      ⟨"v2.mp4", true, 61, "video_meta"⟩
      [⟨"v1.mp4", true, 60, "video_meta"⟩, ⟨"v2.mp4", true, 61, "video_meta"⟩]
      []).2 (by decide) (by decide) (by decide)).mp hmem
    exact absurd hw (by decide)

/-! ### C4 -/

/-- C4: in image-similarity mode with 1:N allowed, a video appearing in a
photo's result group was an above-threshold candidate of that photo,
carries exactly its similarity score, and that score is maximal among all
above-threshold candidacies of the video: every other loadable photo whose
similarity to the video is above threshold scores at most as much. -/
theorem c4_winner_take_all (ctx : MatchCtx) (pps vps : List String) (th : Rat)
    (g : String × List (String × Rat)) (v : String) (s : Rat)
    (hg : g ∈ match_photos_to_videos ctx pps vps th true)
    (hv : (v, s) ∈ g.2) :
    s = ctx.sim g.1 v ∧ th ≤ s ∧ ctx.loadOk g.1 = true ∧ g.1 ∈ pps ∧
      ∀ q ∈ pps, ctx.loadOk q = true → th ≤ ctx.sim q v → ctx.sim q v ≤ s := by
  obtain ⟨hp, vs, hd, hsort⟩ := mem_match_multi.1 hg
  have hvvs : (v, s) ∈ vs := by
    have hperm := List.perm_insertionSort (fun a b : String × Rat => a.1 ≤ b.1) vs
    rw [hsort] at hv
    exact hperm.mem_iff.1 hv
  -- transfer back to the video_to_photo dict
  have hv2p : (v, (g.1, s)) ∈ videoToPhoto
      (photoVideoScores ctx (videoFramesKeys ctx vps) th pps) :=
    photoToVideos_mem_rev _ g.1 vs hd (v, s) hvvs
  have hfind : dictFind (videoToPhoto
      (photoVideoScores ctx (videoFramesKeys ctx vps) th pps)) v =
      some (g.1, s) :=
    dictFind_mem_of_nodup (videoToPhoto_keys_nodup _) hv2p
  obtain ⟨hcmem, hcmax⟩ := (videoToPhoto_inv
    (photoVideoScores ctx (videoFramesKeys ctx vps) th pps)).1 v g.1 s hfind
  -- the winning candidacy itself
  obtain ⟨e, he, he1, he2⟩ := mem_allCands.1 hcmem
  obtain ⟨hemem, heload, hescores⟩ :=
    (photoVideoScores_mem ctx (videoFramesKeys ctx vps) th pps [] e he).resolve_right
      (fun hmem => absurd hmem (List.not_mem_nil e))
  rw [hescores] at he2
  obtain ⟨hvvf, hth, hs⟩ := (mem_photoScores ctx _ th e.1 v s).1 he2
  rw [he1] at hs hth
  rw [he1] at hemem heload
  refine ⟨hs, hs ▸ hth, heload, hp, ?_⟩
  intro q hq hqload hqth
  -- q's candidacy for v is among the processed candidates
  have hqfind : dictFind (photoVideoScores ctx (videoFramesKeys ctx vps) th pps)
      q = some (photoScores ctx (videoFramesKeys ctx vps) th q) := by
    rw [photoVideoScores_find]
    rw [if_pos ⟨hq, hqload⟩]
  have hqmem : (q, photoScores ctx (videoFramesKeys ctx vps) th q) ∈
      photoVideoScores ctx (videoFramesKeys ctx vps) th pps :=
    dictFind_some_mem hqfind
  have hqcand : ((q, v, ctx.sim q v) : String × String × Rat) ∈ allCands
      (photoVideoScores ctx (videoFramesKeys ctx vps) th pps) := by
    refine mem_allCands.2 ⟨(q, photoScores ctx (videoFramesKeys ctx vps) th q),
      hqmem, rfl, ?_⟩
    exact (mem_photoScores ctx _ th q v (ctx.sim q v)).2 ⟨hvvf, hqth, rfl⟩
  exact hcmax _ hqcand rfl

/-- C4 witness: a video scoring 8 against photo A and 6 against photo B
(both above threshold 1) lands in A's group only. -/
theorem c4_winner_take_all_witness :
    match_photos_to_videos
      ⟨fun _ => true, fun _ => true,
        fun p v => if p = "A.jpg" ∧ v = "V.mp4" then 8
          else if p = "B.jpg" ∧ v = "V.mp4" then 6 else 0⟩
      ["A.jpg", "B.jpg"] ["V.mp4"] 1 true =
      [("A.jpg", [("V.mp4", 8)])] ∧
    ∀ hg : ("B.jpg", [(("V.mp4" : String), (6 : Rat))]) ∈
      match_photos_to_videos
        ⟨fun _ => true, fun _ => true,
          fun p v => if p = "A.jpg" ∧ v = "V.mp4" then 8
            else if p = "B.jpg" ∧ v = "V.mp4" then 6 else 0⟩
        ["A.jpg", "B.jpg"] ["V.mp4"] 1 true, False := by
  refine ⟨by decide, ?_⟩
  intro hg
  have hmax := (c4_winner_take_all
    ⟨fun _ => true, fun _ => true,
      fun p v => if p = "A.jpg" ∧ v = "V.mp4" then 8
        else if p = "B.jpg" ∧ v = "V.mp4" then 6 else 0⟩
    ["A.jpg", "B.jpg"] ["V.mp4"] 1 _ "V.mp4" 6 hg
    (by decide)).2.2.2.2 "A.jpg" (by decide) (by decide) (by decide)
  exact absurd hmax (by decide)

/-! ### C10 -/

/-- C10: in image-similarity mode with 1:N allowed, every video whose frame
was sampled successfully and that scores at or above the threshold against
at least one successfully loaded photo appears exactly once across the
groups of the result: no above-threshold video is left unmatched. -/
theorem c10_above_threshold_video_assigned (ctx : MatchCtx)
    (pps vps : List String) (th : Rat) (v : String) (hnd : pps.Nodup)
    (hv : v ∈ vps) (hframe : ctx.frameOk v = true)
    (hcand : ∃ p ∈ pps, ctx.loadOk p = true ∧ th ≤ ctx.sim p v) :
    (matchesVideos (match_photos_to_videos ctx pps vps th true)).count v = 1 := by
  obtain ⟨p, hp, hpload, hpth⟩ := hcand
  have hvvf : v ∈ videoFramesKeys ctx vps :=
    (mem_videoFramesKeys ctx vps v).2 ⟨hv, hframe⟩
  -- p's candidacy for v is one of the processed candidates
  have hpfind : dictFind (photoVideoScores ctx (videoFramesKeys ctx vps) th pps)
      p = some (photoScores ctx (videoFramesKeys ctx vps) th p) := by
    rw [photoVideoScores_find]
    rw [if_pos ⟨hp, hpload⟩]
  have hpcand : ((p, v, ctx.sim p v) : String × String × Rat) ∈ allCands
      (photoVideoScores ctx (videoFramesKeys ctx vps) th pps) := by
    refine mem_allCands.2 ⟨(p, photoScores ctx (videoFramesKeys ctx vps) th p),
      dictFind_some_mem hpfind, rfl, ?_⟩
    exact (mem_photoScores ctx _ th p v (ctx.sim p v)).2 ⟨hvvf, hpth, rfl⟩
  -- so the winner-take-all dict holds an entry for v
  have hsome := (videoToPhoto_inv
    (photoVideoScores ctx (videoFramesKeys ctx vps) th pps)).2 _ hpcand
  rcases hfind : dictFind (videoToPhoto
      (photoVideoScores ctx (videoFramesKeys ctx vps) th pps)) v with _ | pr
  · rw [hfind] at hsome
    exact Bool.noConfusion hsome
  · -- the winner's group contains v
    obtain ⟨hwmem, _⟩ := (videoToPhoto_inv
      (photoVideoScores ctx (videoFramesKeys ctx vps) th pps)).1 v pr.1 pr.2
      (by rw [hfind])
    obtain ⟨e, he, he1, _⟩ := mem_allCands.1 hwmem
    obtain ⟨hemem, heload, _⟩ :=
      (photoVideoScores_mem ctx (videoFramesKeys ctx vps) th pps [] e he).resolve_right
        (fun hmem => absurd hmem (List.not_mem_nil e))
    obtain ⟨vs, hvs, hvsmem⟩ := photoToVideos_mem_transfer _ (v, pr)
      (dictFind_some_mem hfind)
    have hgroup : ((pr.1, List.insertionSort
        (fun a b : String × Rat => a.1 ≤ b.1) vs) :
          String × List (String × Rat)) ∈
        match_photos_to_videos ctx pps vps th true := by
      refine mem_match_multi.2 ⟨?_, vs, hvs, rfl⟩
      rw [← he1]
      exact hemem
    have hvmem : v ∈ matchesVideos (match_photos_to_videos ctx pps vps th true) := by
      rw [matchesVideos, List.mem_flatten]
      refine ⟨groupVids (pr.1, List.insertionSort
        (fun a b : String × Rat => a.1 ≤ b.1) vs), List.mem_map_of_mem _ hgroup, ?_⟩
      rw [groupVids]
      have hperm :=
        (List.perm_insertionSort (fun a b : String × Rat => a.1 ≤ b.1) vs).map Prod.fst
      refine hperm.mem_iff.2 ?_
      exact List.mem_map_of_mem Prod.fst hvsmem
    exact List.count_eq_one_of_mem
      (matchesVideos_match_multi_nodup ctx pps vps th hnd) hvmem

/-- C10 witness: the theorem applied to a concrete run with one photo and
one above-threshold video. -/
theorem c10_above_threshold_video_assigned_witness :
    (matchesVideos (match_photos_to_videos
      ⟨fun _ => true, fun _ => true, fun _ _ => 5⟩
      ["A.jpg", "B.jpg"] ["V.mp4", "W.mp4"] 1 true)).count "V.mp4" = 1 := by
  exact c10_above_threshold_video_assigned
    ⟨fun _ => true, fun _ => true, fun _ _ => 5⟩ ["A.jpg", "B.jpg"]
    ["V.mp4", "W.mp4"] 1 "V.mp4" (by decide) (by decide) (by decide)
    ⟨"A.jpg", by decide, by decide, by decide⟩

/-! ### C5 support -/

theorem emitGroup_sub_one {p : MediaFile} {s : Nat} {l : List MediaFile}
    (h : l.length = 1) :
    (emitGroup p s l).map (fun pr => pr.sub_sequence) = [""] := by
  match l with
  | [v] => rfl
  | [] => simp at h
  | v₁ :: v₂ :: t =>
    rw [List.length_cons, List.length_cons] at h
    omega

theorem emitGroup_sub_two {p : MediaFile} {s : Nat} {l : List MediaFile}
    (h : 2 ≤ l.length) :
    (emitGroup p s l).map (fun pr => pr.sub_sequence) =
      (List.range l.length).map subLabelOf := by
  match l with
  | [] => simp at h
  | [v] => simp at h
  | v₁ :: v₂ :: t =>
    rw [emitGroup_two]
    have hlbl := map_enumFrom_build_lbl
      (fun (i : Nat) (v : MediaFile) => (⟨p, v, s, subLabelOf i⟩ : FilePair))
      (fun pr => pr.sub_sequence) (fun _ _ => rfl) 0 (v₁ :: v₂ :: t)
    rw [List.range_eq_range']
    exact hlbl

theorem imageEmit_sub_one {pm vm : List (String × MediaFile)} {s : Nat}
    {ppath : String} {l : List (String × Rat)} (h : l.length = 1) :
    (imageEmit pm vm s (ppath, l)).map (fun pr => pr.sub_sequence) = [""] := by
  match l with
  | [vs] => rfl
  | [] => simp at h
  | vs₁ :: vs₂ :: t =>
    rw [List.length_cons, List.length_cons] at h
    omega

theorem imageEmit_sub_two {pm vm : List (String × MediaFile)} {s : Nat}
    {ppath : String} {l : List (String × Rat)} (h : 2 ≤ l.length) :
    (imageEmit pm vm s (ppath, l)).map (fun pr => pr.sub_sequence) =
      (List.range l.length).map subLabelOf := by
  match l with
  | [] => simp at h
  | [vs] => simp at h
  | vs₁ :: vs₂ :: t =>
    rw [imageEmit_two]
    have hlbl := map_enumFrom_build_lbl
      (fun (i : Nat) (vs : String × Rat) =>
        (⟨lookupMedia pm ppath, lookupMedia vm vs.1, s, subLabelOf i⟩ : FilePair))
      (fun pr => pr.sub_sequence) (fun _ _ => rfl) 0 (vs₁ :: vs₂ :: t)
    rw [List.range_eq_range']
    exact hlbl

theorem insertionSort_time_chain (l : List MediaFile) :
    List.Chain' (fun a b : MediaFile => a.created_time ≤ b.created_time)
      (List.insertionSort
        (fun a b : MediaFile => a.created_time ≤ b.created_time) l) :=
  (List.sorted_insertionSort _ l).chain'

theorem insertionSort_name_chain (l : List (String × Rat)) :
    List.Chain' (fun a b : String × Rat => a.1 ≤ b.1)
      (List.insertionSort (fun a b : String × Rat => a.1 ≤ b.1) l) :=
  (List.sorted_insertionSort _ l).chain'

/-! ### C5 -/

/-- C5: for a photo matched with `n` videos, a single match is emitted with
the empty sub-sequence; `n ≥ 2` matches are emitted in ascending video
timestamp order (time-tolerance mode) or ascending filename order
(image-similarity mode) with sub-sequences `subLabelOf 0, subLabelOf 1, …`,
where `subLabelOf i` is the letter `a, b, c, …` for `i < 26` and the ordinal
numeral `i + 1` (so the 27th video gets `"27"`) from the 27th video on. -/
theorem c5_sub_sequence_labeling (photo : MediaFile) (matched : List MediaFile)
    (seq : Nat) (pm vm : List (String × MediaFile)) (hvm : PathConsistent vm)
    (ppath : String) (vlist : List (String × Rat)) :
    ((emitGroup photo seq (List.insertionSort
        (fun a b : MediaFile => a.created_time ≤ b.created_time) matched)).length =
      matched.length) ∧
    (matched.length = 1 →
      (emitGroup photo seq (List.insertionSort
        (fun a b : MediaFile => a.created_time ≤ b.created_time) matched)).map
        (fun pr => pr.sub_sequence) = [""]) ∧
    (2 ≤ matched.length →
      (emitGroup photo seq (List.insertionSort
        (fun a b : MediaFile => a.created_time ≤ b.created_time) matched)).map
        (fun pr => pr.sub_sequence) = (List.range matched.length).map subLabelOf) ∧
    ((emitGroup photo seq (List.insertionSort
        (fun a b : MediaFile => a.created_time ≤ b.created_time) matched)).map
        (fun pr => pr.video) =
      List.insertionSort
        (fun a b : MediaFile => a.created_time ≤ b.created_time) matched) ∧
    List.Chain' (fun a b : MediaFile => a.created_time ≤ b.created_time)
      (List.insertionSort
        (fun a b : MediaFile => a.created_time ≤ b.created_time) matched) ∧
    (vlist.length = 1 →
      (imageEmit pm vm seq (ppath, List.insertionSort
        (fun a b : String × Rat => a.1 ≤ b.1) vlist)).map
        (fun pr => pr.sub_sequence) = [""]) ∧
    (2 ≤ vlist.length →
      (imageEmit pm vm seq (ppath, List.insertionSort
        (fun a b : String × Rat => a.1 ≤ b.1) vlist)).map
        (fun pr => pr.sub_sequence) = (List.range vlist.length).map subLabelOf) ∧
    ((imageEmit pm vm seq (ppath, List.insertionSort
        (fun a b : String × Rat => a.1 ≤ b.1) vlist)).map
        (fun pr => pr.video.path) =
      (List.insertionSort (fun a b : String × Rat => a.1 ≤ b.1) vlist).map
        Prod.fst) ∧
    List.Chain' (fun a b : String × Rat => a.1 ≤ b.1)
      (List.insertionSort (fun a b : String × Rat => a.1 ≤ b.1) vlist) ∧
    (∀ i, i < 26 → subLabelOf i = String.singleton (Char.ofNat (97 + i))) ∧
    (∀ i, 26 ≤ i → subLabelOf i = toString (i + 1)) := by
  have hlen : (List.insertionSort
      (fun a b : MediaFile => a.created_time ≤ b.created_time) matched).length =
      matched.length := (List.perm_insertionSort _ _).length_eq
  have hlen' : (List.insertionSort
      (fun a b : String × Rat => a.1 ≤ b.1) vlist).length = vlist.length :=
    (List.perm_insertionSort _ _).length_eq
  refine ⟨?_, ?_, ?_, emitGroup_map_video _ _ _, insertionSort_time_chain _,
    ?_, ?_, ?_, insertionSort_name_chain _, ?_, ?_⟩
  · rw [emitGroup_length, hlen]
  · intro h1
    exact emitGroup_sub_one (by rw [hlen, h1])
  · intro h2
    rw [emitGroup_sub_two (by rw [hlen]; exact h2), hlen]
  · intro h1
    exact imageEmit_sub_one (by rw [hlen', h1])
  · intro h2
    rw [imageEmit_sub_two (by rw [hlen']; exact h2), hlen']
  · have h := congrArg (List.map (fun f : MediaFile => f.path))
      (imageEmit_map_video pm vm seq (ppath, List.insertionSort
        (fun a b : String × Rat => a.1 ≤ b.1) vlist))
    rw [List.map_map, List.map_map] at h
    rw [show ((fun f : MediaFile => f.path) ∘ fun pr : FilePair => pr.video) =
      (fun pr : FilePair => pr.video.path) from rfl] at h
    rw [h]
    refine List.map_congr_left ?_
    intro vs _
    exact lookupMedia_path hvm vs.1
  · decide
  · intro i hi
    rw [subLabelOf]
    have hnone : sub_labels.get? i = none := by
      refine List.get?_eq_none.2 ?_
      have : sub_labels.length = 26 := rfl
      omega
    rw [hnone]

/-- C5 witness: a photo matched to three videos in timestamp order gets the
sub-sequences `a, b, c` in that order, and the label for index 26 (the 27th
video) is the numeral `"27"`. -/
theorem c5_sub_sequence_labeling_witness :
    (emitGroup ⟨"p.jpg", false, 0, "exif"⟩ 1 (List.insertionSort
        (fun a b : MediaFile => a.created_time ≤ b.created_time)
        [⟨"v2.mp4", true, 20, "video_meta"⟩, ⟨"v1.mp4", true, 10, "video_meta"⟩,
          ⟨"v3.mp4", true, 30, "video_meta"⟩])).map
      (fun pr => pr.sub_sequence) = ["a", "b", "c"] ∧
    subLabelOf 26 = "27" := by
  constructor
  · have h := (c5_sub_sequence_labeling ⟨"p.jpg", false, 0, "exif"⟩
      [⟨"v2.mp4", true, 20, "video_meta"⟩, ⟨"v1.mp4", true, 10, "video_meta"⟩,
        ⟨"v3.mp4", true, 30, "video_meta"⟩] 1 [] []
      (fun e he => absurd he (List.not_mem_nil e)) "p" []).2.2.1 (by decide)
    rw [h]
    decide
  · have h := (c5_sub_sequence_labeling ⟨"p.jpg", false, 0, "exif"⟩ [] 1 [] []
      (fun e he => absurd he (List.not_mem_nil e)) "p" []).2.2.2.2.2.2.2.2.2.2
      26 (by decide)
    rw [h]
    rfl

/-! ### C6 -/

/-- C6 counterexample: with a perfectly healthy video (duration known, every
ffmpeg run succeeding), `split_video` at segment count 11 raises
`ValueError` (modelled `Except.error`) instead of returning an empty
list. -/
theorem c6_counterexample :
    split_video ⟨fun _ => some 10, fun _ => SegResult.ok⟩ "in.mp4" "out" 11
        "base" ".mp4" =
      Except.error "segment count must be between 2 and 10" ∧
    split_video ⟨fun _ => some 10, fun _ => SegResult.ok⟩ "in.mp4" "out" 11
        "base" ".mp4" ≠
      Except.ok [] := by
  refine ⟨rfl, fun h => ?_⟩
  have h' : (Except.error "segment count must be between 2 and 10" :
      Except String (List String)) = Except.ok [] := h
  exact Except.noConfusion h'

/-- C6 amended: `split_video` raises `ValueError` (modelled `Except.error`)
when the requested segment count is outside `[2,10]`, and returns an empty
list when the video's duration cannot be determined. -/
theorem c6_split_video_failure_modes (sc : SplitCtx)
    (input_path output_dir : String) (n : Nat) (base_name ext : String) :
    (n < 2 ∨ 10 < n →
      split_video sc input_path output_dir n base_name ext =
        Except.error "segment count must be between 2 and 10") ∧
    (2 ≤ n → n ≤ 10 → sc.duration input_path = none →
      split_video sc input_path output_dir n base_name ext = Except.ok []) := by
  constructor
  · intro h
    rw [split_video, if_pos h]
  · intro h2 h10 hdur
    have hcond : ¬ (n < 2 ∨ 10 < n) := by
      rw [not_or]
      omega
    rw [split_video, if_neg hcond, hdur]

/-- C6 amended witness: segment count 1 raises, and an undeterminable
duration yields an empty list at a valid segment count. -/
theorem c6_split_video_failure_modes_witness :
    split_video ⟨fun _ => some 10, fun _ => SegResult.ok⟩ "in.mp4" "out" 1
        "base" ".mp4" =
      Except.error "segment count must be between 2 and 10" ∧
    split_video ⟨fun _ => none, fun _ => SegResult.ok⟩ "in.mp4" "out" 3
        "base" ".mp4" = Except.ok [] := by
  constructor
  · exact (c6_split_video_failure_modes ⟨fun _ => some 10, fun _ => SegResult.ok⟩
      "in.mp4" "out" 1 "base" ".mp4").1 (by decide)
  · exact (c6_split_video_failure_modes ⟨fun _ => none, fun _ => SegResult.ok⟩
      "in.mp4" "out" 3 "base" ".mp4").2 (by decide) (by decide) rfl

/-! ### C7 -/

/-- C7: order mode produces exactly `min(#photos, #videos)` pairs; the i-th
pair joins the i-th photo of the filename-sorted photo list with the i-th
video of the creation-time-sorted video list under sequence `i + 1`;
surplus photos and videos are excluded from the pairs and reported via
warnings only (the function is total — no error path exists). -/
theorem c7_order_mode_positional (ctx : MatchCtx) (birth : String → Int)
    (mf : List MediaFile) :
    ((pair_files ctx birth mf "order").1.length =
      min (mf.filter (fun f => !f.is_video)).length
        (mf.filter (fun f => f.is_video)).length) ∧
    ((pair_files ctx birth mf "order").1.map (fun pr => pr.photo) =
      (List.insertionSort (fun a b : MediaFile => a.path ≤ b.path)
        (mf.filter (fun f => !f.is_video))).take
          (mf.filter (fun f => f.is_video)).length) ∧
    ((pair_files ctx birth mf "order").1.map (fun pr => pr.video) =
      (List.insertionSort (fun a b : MediaFile => birth a.path ≤ birth b.path)
        (mf.filter (fun f => f.is_video))).take
          (mf.filter (fun f => !f.is_video)).length) ∧
    ((pair_files ctx birth mf "order").1.map (fun pr => pr.sequence) =
      List.range' 1 (min (mf.filter (fun f => !f.is_video)).length
        (mf.filter (fun f => f.is_video)).length)) ∧
    ((mf.filter (fun f => f.is_video)).length <
        (mf.filter (fun f => !f.is_video)).length →
      ∀ f ∈ (List.insertionSort (fun a b : MediaFile => a.path ≤ b.path)
          (mf.filter (fun f => !f.is_video))).drop
            (mf.filter (fun f => f.is_video)).length,
        Warning.unmatchedPhoto f.path ∈ (pair_files ctx birth mf "order").2) ∧
    ((mf.filter (fun f => !f.is_video)).length <
        (mf.filter (fun f => f.is_video)).length →
      ∀ f ∈ (List.insertionSort
          (fun a b : MediaFile => birth a.path ≤ birth b.path)
          (mf.filter (fun f => f.is_video))).drop
            (mf.filter (fun f => !f.is_video)).length,
        Warning.unmatchedVideo f.path ∈ (pair_files ctx birth mf "order").2) := by
  obtain ⟨h1, h2, h3, h4⟩ := orderPairs_facts
    (List.insertionSort (fun a b : MediaFile => a.path ≤ b.path)
      (mf.filter (fun f => !f.is_video)))
    (List.insertionSort (fun a b : MediaFile => birth a.path ≤ birth b.path)
      (mf.filter (fun f => f.is_video)))
  have hplen : (List.insertionSort (fun a b : MediaFile => a.path ≤ b.path)
      (mf.filter (fun f => !f.is_video))).length =
      (mf.filter (fun f => !f.is_video)).length :=
    (List.perm_insertionSort _ _).length_eq
  have hvlen : (List.insertionSort
      (fun a b : MediaFile => birth a.path ≤ birth b.path)
      (mf.filter (fun f => f.is_video))).length =
      (mf.filter (fun f => f.is_video)).length :=
    (List.perm_insertionSort _ _).length_eq
  refine ⟨?_, ?_, ?_, ?_, ?_, ?_⟩
  · rw [pair_files_order_eq, h1, hplen, hvlen]
  · rw [pair_files_order_eq, h2, hvlen]
  · rw [pair_files_order_eq, h3, hplen]
  · rw [pair_files_order_eq, h4, hplen, hvlen]
  · intro hlt f hf
    rw [pair_files_order_eq]
    refine List.mem_append_right _ ?_
    rw [if_pos hlt]
    exact List.mem_map_of_mem _ hf
  · intro hlt f hf
    rw [pair_files_order_eq]
    refine List.mem_append_right _ ?_
    rw [if_neg (by omega), if_pos hlt]
    exact List.mem_map_of_mem _ hf

/-- C7 witness: three photos and two videos yield exactly two pairs; the
surplus photo is warned about. -/
theorem c7_order_mode_positional_witness :
    (pair_files ⟨fun _ => true, fun _ => true, fun _ _ => 0⟩
      (fun p => if p = "v1.mp4" then 1 else 2)
      [⟨"p1.jpg", false, 0, "exif"⟩, ⟨"p2.jpg", false, 1, "exif"⟩,
        ⟨"p3.jpg", false, 2, "exif"⟩, ⟨"v1.mp4", true, 3, "video_meta"⟩,
        ⟨"v2.mp4", true, 4, "video_meta"⟩] "order").1.length = 2 ∧
    Warning.unmatchedPhoto "p3.jpg" ∈
      (pair_files ⟨fun _ => true, fun _ => true, fun _ _ => 0⟩
        (fun p => if p = "v1.mp4" then 1 else 2)
        [⟨"p1.jpg", false, 0, "exif"⟩, ⟨"p2.jpg", false, 1, "exif"⟩,
          ⟨"p3.jpg", false, 2, "exif"⟩, ⟨"v1.mp4", true, 3, "video_meta"⟩,
          ⟨"v2.mp4", true, 4, "video_meta"⟩] "order").2 := by
  constructor
  · have h := (c7_order_mode_positional ⟨fun _ => true, fun _ => true, fun _ _ => 0⟩
      (fun p => if p = "v1.mp4" then 1 else 2)
      [⟨"p1.jpg", false, 0, "exif"⟩, ⟨"p2.jpg", false, 1, "exif"⟩,
        ⟨"p3.jpg", false, 2, "exif"⟩, ⟨"v1.mp4", true, 3, "video_meta"⟩,
        ⟨"v2.mp4", true, 4, "video_meta"⟩]).1
    rw [h]
    decide
  · refine (c7_order_mode_positional ⟨fun _ => true, fun _ => true, fun _ _ => 0⟩
      (fun p => if p = "v1.mp4" then 1 else 2)
      [⟨"p1.jpg", false, 0, "exif"⟩, ⟨"p2.jpg", false, 1, "exif"⟩,
        ⟨"p3.jpg", false, 2, "exif"⟩, ⟨"v1.mp4", true, 3, "video_meta"⟩,
        ⟨"v2.mp4", true, 4, "video_meta"⟩]).2.2.2.2.1 (by decide)
      ⟨"p3.jpg", false, 2, "exif"⟩ ?_
    simp only [List.filter, List.insertionSort, List.orderedInsert]
    norm_num
    decide

/-! ### C8 / C9 support -/

theorem scanEntry_image (mc : MetaCtx) (isFile : String → Bool) (p : String)
    (hfile : isFile p = true)
    (himg : strLower (pathSuffix p) ∈ IMAGE_EXTENSIONS) :
    scanEntry mc isFile p =
      some ⟨p, false, (get_media_datetime mc p false).1,
        (get_media_datetime mc p false).2⟩ := by
  rw [scanEntry, hfile]
  simp only [Bool.not_true, Bool.false_eq_true, if_false]
  rw [if_pos himg]

theorem scanEntry_video (mc : MetaCtx) (isFile : String → Bool) (p : String)
    (hfile : isFile p = true)
    (hvid : strLower (pathSuffix p) ∈ VIDEO_EXTENSIONS) :
    scanEntry mc isFile p =
      some ⟨p, true, (get_media_datetime mc p true).1,
        (get_media_datetime mc p true).2⟩ := by
  have himg : strLower (pathSuffix p) ∉ IMAGE_EXTENSIONS := by
    intro h
    have hdisj : ∀ s ∈ IMAGE_EXTENSIONS, s ∉ VIDEO_EXTENSIONS := by decide
    exact hdisj _ h hvid
  rw [scanEntry, hfile]
  simp only [Bool.not_true, Bool.false_eq_true, if_false]
  rw [if_neg himg, if_pos hvid]

theorem scan_media_files_mem (mc : MetaCtx) (isFile : String → Bool)
    (entries : List String) (f : MediaFile) :
    (∃ l, scan_media_files mc true isFile entries = Except.ok l ∧ f ∈ l) ↔
      ∃ p ∈ entries, scanEntry mc isFile p = some f := by
  rw [scan_media_files]
  simp only [Bool.not_true, Bool.false_eq_true, if_false]
  constructor
  · rintro ⟨l, hl, hf⟩
    obtain rfl := Except.ok.inj hl
    have hperm := List.perm_insertionSort
      (fun a b : MediaFile => a.created_time ≤ b.created_time)
      (entries.filterMap (scanEntry mc isFile))
    have := hperm.mem_iff.1 hf
    rw [List.mem_filterMap] at this
    exact this
  · rintro ⟨p, hp, hsome⟩
    refine ⟨_, rfl, ?_⟩
    have hperm := List.perm_insertionSort
      (fun a b : MediaFile => a.created_time ≤ b.created_time)
      (entries.filterMap (scanEntry mc isFile))
    refine hperm.mem_iff.2 ?_
    rw [List.mem_filterMap]
    exact ⟨p, hp, hsome⟩

/-! ### C8 -/

/-- C8: timestamp resolution is total and degrades to the filesystem time
tagged `"filesystem"` whenever the embedded metadata oracle yields nothing
(the Python helpers catch every tool/parse failure and return None); hence
a supported-extension file with no embedded metadata still enters the scan
result with a valid resolved time — it is never dropped. -/
theorem c8_timestamp_never_fails (mc : MetaCtx) (p : String)
    (isFile : String → Bool) (entries : List String) :
    (mc.videoMeta p = none →
      get_media_datetime mc p true = (mc.fsTime p, "filesystem")) ∧
    (mc.exif p = none →
      get_media_datetime mc p false = (mc.fsTime p, "filesystem")) ∧
    (p ∈ entries → isFile p = true →
      strLower (pathSuffix p) ∈ IMAGE_EXTENSIONS →
      ∃ l, scan_media_files mc true isFile entries = Except.ok l ∧
        (⟨p, false, (get_media_datetime mc p false).1,
          (get_media_datetime mc p false).2⟩ : MediaFile) ∈ l) ∧
    (p ∈ entries → isFile p = true →
      strLower (pathSuffix p) ∈ VIDEO_EXTENSIONS →
      ∃ l, scan_media_files mc true isFile entries = Except.ok l ∧
        (⟨p, true, (get_media_datetime mc p true).1,
          (get_media_datetime mc p true).2⟩ : MediaFile) ∈ l) := by
  refine ⟨?_, ?_, ?_, ?_⟩
  · intro h
    rw [get_media_datetime, if_pos rfl, h]
  · intro h
    rw [get_media_datetime]
    simp only [Bool.false_eq_true, if_false]
    rw [h]
  · intro hp hfile himg
    exact (scan_media_files_mem mc isFile entries _).2
      ⟨p, hp, scanEntry_image mc isFile p hfile himg⟩
  · intro hp hfile hvid
    exact (scan_media_files_mem mc isFile entries _).2
      ⟨p, hp, scanEntry_video mc isFile p hfile hvid⟩

/-- C8 witness: a jpg with no EXIF data is scanned with the filesystem
time, source `"filesystem"`. -/
theorem c8_timestamp_never_fails_witness :
    get_media_datetime ⟨fun _ => none, fun _ => none, fun _ => 42⟩ "a.jpg" false =
      (42, "filesystem") ∧
    ∃ l, scan_media_files ⟨fun _ => none, fun _ => none, fun _ => 42⟩ true
        (fun _ => true) ["a.jpg"] = Except.ok l ∧
      (⟨"a.jpg", false,
        (get_media_datetime ⟨fun _ => none, fun _ => none, fun _ => 42⟩
          "a.jpg" false).1,
        (get_media_datetime ⟨fun _ => none, fun _ => none, fun _ => 42⟩
          "a.jpg" false).2⟩ : MediaFile) ∈ l := by
  constructor
  · exact (c8_timestamp_never_fails ⟨fun _ => none, fun _ => none, fun _ => 42⟩
      "a.jpg" (fun _ => true) ["a.jpg"]).2.1 rfl
  · exact (c8_timestamp_never_fails ⟨fun _ => none, fun _ => none, fun _ => 42⟩
      "a.jpg" (fun _ => true) ["a.jpg"]).2.2.1 (by decide) rfl (by decide)

/-! ### C9 -/

/-- C9: the source tag of `get_media_datetime` matches the declared kind —
`"video_meta"` or `"filesystem"` for videos, `"exif"` or `"filesystem"` for
photos — and every `MediaFile` produced by scanning carries a `time_source`
compatible with its `is_video` flag. -/
theorem c9_time_source_matches_kind (mc : MetaCtx) (p : String)
    (dirExists : Bool) (isFile : String → Bool) (entries : List String)
    (l : List MediaFile) :
    ((get_media_datetime mc p true).2 = "video_meta" ∨
      (get_media_datetime mc p true).2 = "filesystem") ∧
    ((get_media_datetime mc p false).2 = "exif" ∨
      (get_media_datetime mc p false).2 = "filesystem") ∧
    (scan_media_files mc dirExists isFile entries = Except.ok l →
      ∀ f ∈ l,
        (f.is_video = true →
          f.time_source = "video_meta" ∨ f.time_source = "filesystem") ∧
        (f.is_video = false →
          f.time_source = "exif" ∨ f.time_source = "filesystem")) := by
  have hvid : ∀ q : String, (get_media_datetime mc q true).2 = "video_meta" ∨
      (get_media_datetime mc q true).2 = "filesystem" := by
    intro q
    rw [get_media_datetime, if_pos rfl]
    rcases mc.videoMeta q with _ | t
    · exact Or.inr rfl
    · exact Or.inl rfl
  have hpho : ∀ q : String, (get_media_datetime mc q false).2 = "exif" ∨
      (get_media_datetime mc q false).2 = "filesystem" := by
    intro q
    rw [get_media_datetime]
    simp only [Bool.false_eq_true, if_false]
    rcases mc.exif q with _ | t
    · exact Or.inr rfl
    · exact Or.inl rfl
  refine ⟨hvid p, hpho p, ?_⟩
  intro hok f hf
  rcases dirExists with _ | _
  · rw [scan_media_files] at hok
    exact Except.noConfusion hok
  · have hmem := (scan_media_files_mem mc isFile entries f).1 ⟨l, hok, hf⟩
    obtain ⟨q, hq, hsome⟩ := hmem
    rw [scanEntry] at hsome
    rcases hfile : isFile q with _ | _
    · rw [hfile] at hsome
      simp at hsome
    · rw [hfile] at hsome
      simp only [Bool.not_true, Bool.false_eq_true, if_false] at hsome
      by_cases himg : strLower (pathSuffix q) ∈ IMAGE_EXTENSIONS
      · rw [if_pos himg] at hsome
        obtain rfl := Option.some.inj hsome
        exact ⟨fun h => Bool.noConfusion h, fun _ => hpho q⟩
      · rw [if_neg himg] at hsome
        by_cases hv : strLower (pathSuffix q) ∈ VIDEO_EXTENSIONS
        · rw [if_pos hv] at hsome
          obtain rfl := Option.some.inj hsome
          exact ⟨fun _ => hvid q, fun h => Bool.noConfusion h⟩
        · rw [if_neg hv] at hsome
          exact Option.noConfusion hsome

/-- C9 witness: concrete scan of one photo and one video. -/
theorem c9_time_source_matches_kind_witness :
    (get_media_datetime ⟨fun _ => some 7, fun _ => some 9, fun _ => 42⟩
      "v.mp4" true).2 = "video_meta" ∧
    ∀ f ∈ [(⟨"a.jpg", false, 7, "exif"⟩ : MediaFile),
        ⟨"v.mp4", true, 9, "video_meta"⟩],
      (f.is_video = true →
        f.time_source = "video_meta" ∨ f.time_source = "filesystem") ∧
      (f.is_video = false →
        f.time_source = "exif" ∨ f.time_source = "filesystem") := by
  constructor
  · rcases (c9_time_source_matches_kind
      ⟨fun _ => some 7, fun _ => some 9, fun _ => 42⟩ "v.mp4" true
      (fun _ => true) [] []).1 with h | h
    · exact h
    · exact absurd h (by decide)
  · exact (c9_time_source_matches_kind
      ⟨fun _ => some 7, fun _ => some 9, fun _ => 42⟩ "x" true
      (fun _ => true) ["a.jpg", "v.mp4"]
      [⟨"a.jpg", false, 7, "exif"⟩, ⟨"v.mp4", true, 9, "video_meta"⟩]).2.2 rfl
